import Mathlib

/-!
Formal model of the identity-reconciliation service (`index.js` together with
`models/contact.js` and `models/parent.js`).

The two MongoDB collections are modelled as in-memory lists of documents kept
in insertion order.  `findOne` is `List.find?` (first document matching the
filter), `updateMany` maps over all documents, `save` overwrites the document
with the same `_id`, and `deleteOne` removes the first matching document
(`List.eraseP`).  Both schemas declare `_id : Number` with alias `id`, so the
filter `{ id: x }` in `Parent.deleteOne` is modelled as deletion by `_id`.
Client input is modelled after parsing: numeric ids as `Nat`, absent fields as
`none`.  JavaScript string truthiness (`if (email)`) is modelled by
`strTruthy`.  Timestamps (`new Date()`) are an abstract `Nat` parameter.
-/

inductive LinkPrecedence where
  | primary
  | secondary
deriving DecidableEq, Repr

/-- `models/contact.js`: the `Contact` schema. -/
structure Contact where
  id : Nat
  phoneNumber : Option String
  email : Option String
  linkedId : Option Nat
  linkPrecedence : LinkPrecedence
  createdAt : Nat
  updatedAt : Nat
deriving DecidableEq, Repr

/-- `models/parent.js`: the `Parent` (disjoint-set row) schema.
`id` is the Mongo `_id`, `parId` the set's root, `childIds` its members. -/
structure Parent where
  id : Nat
  parId : Nat
  childIds : List Nat
deriving DecidableEq, Repr

/-- The MongoDB database state: the two collections in insertion order. -/
structure DB where
  contacts : List Contact
  parents : List Parent
deriving DecidableEq, Repr

/-- First-occurrence deduplication with an accumulator of already-seen
elements, as performed by the JavaScript `Set` insertion order. -/
def dedupFirstGo {α : Type _} [DecidableEq α] (seen : List α) : List α → List α
  | [] => []
  | a :: l => if a ∈ seen then dedupFirstGo seen l else a :: dedupFirstGo (a :: seen) l

/-- `[...new Set(xs)]`: deduplicate keeping the first occurrence of each
element, preserving order. -/
def dedupFirst {α : Type _} [DecidableEq α] (l : List α) : List α := dedupFirstGo [] l

/-- `Math.min(...l)` over a nonempty list (`0` for `[]`, which the service
never evaluates on the paths modelled here). -/
def minList : List Nat → Nat
  | [] => 0
  | h :: t => t.foldl min h

/-- JavaScript truthiness of an optional string: `undefined`/`null` and the
empty string are falsy. -/
def strTruthy : Option String → Bool
  | none => false
  | some s => decide (s ≠ "")

/-- `unionSets(rootA, rootB)` from `index.js` lines 32–58.  Looks the two
arguments up as row keys (`Parent.findOne({ parId: root })`), picks the
numerically smaller as the surviving root, repoints `parId` of the old set
(`updateMany`), merges `childIds` with duplicates collapsed, saves the
surviving document and deletes the old one.  If either lookup fails the
function returns with no effect.  The JavaScript function returns
`undefined`; the model returns the updated database. -/
def unionSets (db : DB) (rootA rootB : Nat) : DB :=
  match db.parents.find? (fun p => decide (p.parId = rootA)),
        db.parents.find? (fun p => decide (p.parId = rootB)) with
  | some parentA, some parentB =>
    let newRoot := min rootA rootB
    let oldRoot := if newRoot = rootA then rootB else rootA
    let newParent := if newRoot = rootA then parentA else parentB
    let oldParent := if newRoot = rootA then parentB else parentA
    let ps1 := db.parents.map (fun p =>
      if p.parId = oldRoot then { p with parId := newRoot } else p)
    let merged := { newParent with
      childIds := dedupFirst (newParent.childIds ++ oldParent.childIds) }
    let ps2 := ps1.map (fun p => if p.id = newParent.id then merged else p)
    let ps3 := ps2.eraseP (fun p => decide (p.id = oldParent.id))
    { db with parents := ps3 }
  | _, _ => db

/-- Parsed request body of `POST /add-contact`. -/
structure AddReq where
  id : Nat
  phoneNumber : Option String
  email : Option String
  linkedId : Option Nat
  linkPrecedence : LinkPrecedence
deriving DecidableEq, Repr

/-- Outcome of `POST /add-contact`: redirect to `/index.html` on success,
redirect with `linkedId required for secondary contacts` when validation
fails, redirect with a generic error when a save throws (duplicate `_id`). -/
inductive AddRes where
  | redirectOk
  | redirectLinkedIdRequired
  | redirectError
deriving DecidableEq, Repr

/-- The `POST /add-contact` handler, `index.js` lines 61–136.  Validates the
secondary/`linkedId` requirement, persists the contact and its singleton
`Parent` row, collects the roots of all contacts sharing the phone number or
email, optionally unions with the `linkedId`'s root, then unions the new id
with each collected root. -/
def addContact (db : DB) (req : AddReq) (now : Nat) : DB × AddRes :=
  if req.linkPrecedence = .secondary ∧ req.linkedId = none then
    (db, .redirectLinkedIdRequired)
  else if db.contacts.any (fun c => decide (c.id = req.id)) then
    -- duplicate `_id`: `newContact.save()` throws and the handler catches
    (db, .redirectError)
  else
    let newContact : Contact :=
      ⟨req.id, req.phoneNumber, req.email, req.linkedId, req.linkPrecedence, now, now⟩
    let db1 : DB := { contacts := db.contacts ++ [newContact],
                      parents := db.parents ++ [⟨req.id, req.id, [req.id]⟩] }
    let matchingContacts := db1.contacts.filter (fun c =>
      decide ((c.phoneNumber = req.phoneNumber ∨ c.email = req.email) ∧ c.id ≠ req.id))
    let matchingIds := matchingContacts.map (·.id)
    let roots := dedupFirst (matchingIds.filterMap (fun mid =>
      (db1.parents.find? (fun p => decide (mid ∈ p.childIds))).map (·.parId)))
    let db2 :=
      match req.linkPrecedence, req.linkedId with
      | .secondary, some l =>
        match db1.parents.find? (fun p => decide (l ∈ p.childIds)) with
        | some immediateParent =>
          if immediateParent.parId ≠ req.id then
            unionSets db1 immediateParent.parId req.id
          else db1
        | none => db1
      | _, _ => db1
    let db3 := roots.foldl (fun st root =>
      if root ≠ req.id then unionSets st req.id root else st) db2
    (db3, .redirectOk)

/-- The JSON body of a successful `POST /identify` response.  The no-match
branch emits only the corrected `primaryContactId`; the match branch
additionally emits the legacy `primaryContatctId`, so the legacy field is an
`Option`. -/
structure IdentifySummary where
  primaryContatctId : Option Nat
  primaryContactId : Nat
  emails : List String
  phoneNumbers : List String
  secondaryContactIds : List Nat
deriving DecidableEq, Repr

/-- The contacts matching the `$or` filter that `POST /identify` builds from
the truthy identifiers. -/
def identifyMatches (db : DB) (email phoneNumber : Option String) : List Contact :=
  db.contacts.filter (fun c =>
    (strTruthy email && decide (c.email = email)) ||
    (strTruthy phoneNumber && decide (c.phoneNumber = phoneNumber)))

/-- Id allocated by the no-match branch of `/identify`:
`Contact.findOne({}, { _id: 1 }).sort({ _id: -1 })` plus one, or `1` when the
collection is empty. -/
def newIdOf (db : DB) : Nat := (db.contacts.map (·.id)).foldr max 0 + 1

/-- One step of the `/identify` union loop: `if (r !== baseRoot) {
await unionSets(baseRoot, r); baseRoot = Math.min(baseRoot, r); }`. -/
def unionFoldStep (acc : DB × Nat) (r : Nat) : DB × Nat :=
  if r ≠ acc.2 then (unionSets acc.1 acc.2 r, min acc.2 r) else acc

/-- The `/identify` union loop over the collected roots. -/
def unionFold (acc : DB × Nat) (rs : List Nat) : DB × Nat :=
  rs.foldl unionFoldStep acc

/-- The `POST /identify` handler, `index.js` lines 139–237.  Requires at
least one truthy identifier.  With no matching contact it creates a fresh
primary contact and singleton `Parent` row and answers with only the
corrected primary-id field.  Otherwise it unions all roots of the matched
contacts into the minimal one, re-reads that row, fetches every member
contact individually and aggregates the truthy emails and phone numbers. -/
def identify (db : DB) (email phoneNumber : Option String) (now : Nat) :
    DB × Option IdentifySummary :=
  if ¬ strTruthy email ∧ ¬ strTruthy phoneNumber then
    (db, none)
  else
    let matchingContacts := identifyMatches db email phoneNumber
    if matchingContacts.isEmpty then
      let newId := newIdOf db
      let created : Contact := ⟨newId, phoneNumber, email, none, .primary, now, now⟩
      let db' : DB := { contacts := db.contacts ++ [created],
                        parents := db.parents ++ [⟨newId, newId, [newId]⟩] }
      (db', some { primaryContatctId := none
                   primaryContactId := newId
                   emails := if strTruthy email then [email.getD ""] else []
                   phoneNumbers := if strTruthy phoneNumber then [phoneNumber.getD ""] else []
                   secondaryContactIds := [] })
    else
      let matchedIds := matchingContacts.map (·.id)
      let parentRoots := (db.parents.filter (fun p =>
        matchedIds.any (fun mid => decide (mid ∈ p.childIds)))).map (·.parId)
      -- `new Set(...)`; the `Number.isFinite` filter is vacuous over `Nat`
      let rootsArr := dedupFirst parentRoots
      let baseRoot := minList rootsArr
      let folded := unionFold (db, baseRoot) rootsArr
      let db' := folded.1
      let base := folded.2
      let finalParent := db'.parents.find? (fun p => decide (p.parId = base))
      let idList := base :: ((finalParent.map (·.childIds)).getD [])
      let uniqueIds := dedupFirst idList
      let emails := dedupFirst (uniqueIds.filterMap (fun cid =>
        (db'.contacts.find? (fun c => decide (c.id = cid))).bind (fun d =>
          if strTruthy d.email then d.email else none)))
      let phoneNumbers := dedupFirst (uniqueIds.filterMap (fun cid =>
        (db'.contacts.find? (fun c => decide (c.id = cid))).bind (fun d =>
          if strTruthy d.phoneNumber then d.phoneNumber else none)))
      let secondaryIds := idList.filter (fun cid => decide (cid ≠ base))
      (db', some { primaryContatctId := some base
                   primaryContactId := base
                   emails := emails
                   phoneNumbers := phoneNumbers
                   secondaryContactIds := secondaryIds })

/-- The `GET /contacts` route: a pure read of the `Contact` collection. -/
def getContacts (db : DB) : List Contact := db.contacts

/-- The spec's left fold of pairwise unions over a batch of roots: the
accumulator is the surviving root of the previous union. -/
def batchUnion (db : DB) (rs : List Nat) : DB :=
  match rs with
  | [] => db
  | r0 :: rest => (unionFold (db, r0) rest).1

/-- States reachable from the empty database by any sequence of
`/add-contact`, `/identify` and `unionSets` operations. -/
inductive Reachable : DB → Prop where
  | init : Reachable ⟨[], []⟩
  | add (db : DB) (req : AddReq) (now : Nat) :
      Reachable db → Reachable (addContact db req now).1
  | identifyStep (db : DB) (email phoneNumber : Option String) (now : Nat) :
      Reachable db → Reachable (identify db email phoneNumber now).1
  | union (db : DB) (a b : Nat) :
      Reachable db → Reachable (unionSets db a b)

/-- States reachable when `unionSets` is only ever invoked with two distinct
arguments, as at both of its call sites inside the handlers. -/
inductive ReachableD : DB → Prop where
  | init : ReachableD ⟨[], []⟩
  | add (db : DB) (req : AddReq) (now : Nat) :
      ReachableD db → ReachableD (addContact db req now).1
  | identifyStep (db : DB) (email phoneNumber : Option String) (now : Nat) :
      ReachableD db → ReachableD (identify db email phoneNumber now).1
  | union (db : DB) (a b : Nat) (hab : a ≠ b) :
      ReachableD db → ReachableD (unionSets db a b)

/-- There is a live disjoint-set row whose root is `r`. -/
def liveRoot (db : DB) (r : Nat) : Prop := ∃ p, p ∈ db.parents ∧ p.parId = r

/-- `c` is a member of the set rooted at `r`. -/
def membersOf (db : DB) (r : Nat) (c : Nat) : Prop :=
  ∃ p, p ∈ db.parents ∧ p.parId = r ∧ c ∈ p.childIds

/-- Structural invariant of a single `Parent` row: the Mongo `_id` mirrors
the root, the member list is duplicate-free, and the root is its minimum. -/
def RowInv (p : Parent) : Prop :=
  p.id = p.parId ∧ p.childIds.Nodup ∧ p.parId ∈ p.childIds ∧
    ∀ c ∈ p.childIds, p.parId ≤ c

/-- Database well-formedness: unique contact ids, unique row ids, every row
canonical, and every member id backed by a contact. -/
def DbInv (db : DB) : Prop :=
  (db.contacts.map (·.id)).Nodup ∧
  (db.parents.map (·.id)).Nodup ∧
  (∀ p ∈ db.parents, RowInv p) ∧
  (∀ p ∈ db.parents, ∀ c ∈ p.childIds, c ∈ db.contacts.map (·.id))

/-- Partition property: every contact id lies in exactly one row's member
list. -/
def PartitionInv (db : DB) : Prop :=
  ∀ cid ∈ db.contacts.map (·.id),
    ∃ p, p ∈ db.parents ∧ cid ∈ p.childIds ∧
      ∀ q, q ∈ db.parents → cid ∈ q.childIds → q = p

instance (db : DB) (r : Nat) : Decidable (liveRoot db r) := by
  unfold liveRoot; infer_instance

instance (db : DB) (r c : Nat) : Decidable (membersOf db r c) := by
  unfold membersOf; infer_instance

instance (p : Parent) : Decidable (RowInv p) := by
  unfold RowInv; infer_instance

instance (db : DB) : Decidable (DbInv db) := by
  unfold DbInv; infer_instance

instance (db : DB) : Decidable (PartitionInv db) := by
  unfold PartitionInv; infer_instance

/-- The surviving merged row produced by `unionSets a b` from the two rows it
found: the smaller root's document with the deduplicated concatenation of
both member lists. -/
def mergedRow (a b : Nat) (pA pB : Parent) : Parent :=
  let newParent := if min a b = a then pA else pB
  let oldParent := if min a b = a then pB else pA
  { newParent with childIds := dedupFirst (newParent.childIds ++ oldParent.childIds) }

/-! Concrete fixture states used by the claim witnesses and
counterexamples. -/

/-- A plain primary add-contact request with id 1. -/
def reqC2 : AddReq := ⟨1, none, none, none, .primary⟩

/-- Ingest contact 1, then call `unionSets 1 1` on its own root. -/
def dbC2 : DB := unionSets (addContact ⟨[], []⟩ reqC2 0).1 1 1

/-- A primary request carrying both identifiers. -/
def reqW1 : AddReq := ⟨1, some "111", some "a@x.com", none, .primary⟩

/-- A second primary request, for the partition witness. -/
def reqW2 : AddReq := ⟨2, some "222", none, none, .primary⟩

/-- Two live sets: root 1 with members {1, 2}, and the singleton root 3. -/
def dbW3 : DB :=
  ⟨[⟨1, none, some "a", none, .primary, 0, 0⟩,
    ⟨2, some "b", none, some 1, .secondary, 0, 0⟩,
    ⟨3, some "c", none, none, .primary, 0, 0⟩],
   [⟨1, 1, [1, 2]⟩, ⟨3, 3, [3]⟩]⟩

/-- Three singleton sets with roots 2, 5 and 9. -/
def dbW4 : DB :=
  ⟨[⟨2, none, none, none, .primary, 0, 0⟩,
    ⟨5, none, none, none, .primary, 0, 0⟩,
    ⟨9, none, none, none, .primary, 0, 0⟩],
   [⟨2, 2, [2]⟩, ⟨5, 5, [5]⟩, ⟨9, 9, [9]⟩]⟩

/-- Contact 1 (email `a`) already merged with contact 2 (phone `b`). -/
def dbW5 : DB :=
  ⟨[⟨1, none, some "a", none, .primary, 0, 0⟩,
    ⟨2, some "b", none, some 1, .secondary, 0, 0⟩],
   [⟨1, 1, [1, 2]⟩]⟩

/-- Two contacts ingested in sequence. -/
def dbW2 : DB := (addContact (addContact ⟨[], []⟩ reqW1 0).1 reqW2 1).1

/-- The two ingested contacts merged by a union of their roots. -/
def dbW1u : DB := unionSets dbW2 1 2

/-- A secondary request whose `linkedId` (99) references no record. -/
def reqC7 : AddReq := ⟨2, none, none, some 99, .secondary⟩

/-- A single ingested contact with its singleton row. -/
def dbW8 : DB := ⟨[⟨1, none, some "w@x.com", none, .primary, 0, 0⟩], [⟨1, 1, [1]⟩]⟩

/-- A single contact reachable by `/identify`, used for the dual-field
witness. -/
def dbW9 : DB := ⟨[⟨1, none, some "w9@x.com", none, .primary, 0, 0⟩], [⟨1, 1, [1]⟩]⟩

theorem mem_dedupFirstGo {α : Type _} [DecidableEq α] (x : α) (l : List α) :
    ∀ seen : List α, x ∈ dedupFirstGo seen l ↔ x ∈ l ∧ x ∉ seen := by
  induction l with
  | nil => intro seen; simp [dedupFirstGo]
  | cons a l ih =>
    intro seen
    by_cases h : a ∈ seen
    · rw [dedupFirstGo]
      simp only [h, if_pos, List.mem_cons, ih]
      constructor
      · rintro ⟨hx, hs⟩; exact ⟨Or.inr hx, hs⟩
      · rintro ⟨hx | hx, hs⟩
        · exact absurd (hx ▸ h) hs
        · exact ⟨hx, hs⟩
    · rw [dedupFirstGo]
      simp only [h, if_neg, List.mem_cons, ih, not_false_iff]
      constructor
      · rintro (rfl | ⟨hx, hs⟩)
        · exact ⟨Or.inl rfl, h⟩
        · exact ⟨Or.inr hx, fun hx' => hs (Or.inr hx')⟩
      · rintro ⟨rfl | hx, hs⟩
        · exact Or.inl rfl
        · by_cases hxa : x = a
          · exact Or.inl hxa
          · exact Or.inr ⟨hx, fun h' => h'.elim hxa hs⟩

theorem mem_dedupFirst {α : Type _} [DecidableEq α] (x : α) (l : List α) :
    x ∈ dedupFirst l ↔ x ∈ l := by
  rw [dedupFirst, mem_dedupFirstGo]; simp

theorem nodup_dedupFirstGo {α : Type _} [DecidableEq α] (l : List α) :
    ∀ seen : List α, (dedupFirstGo seen l).Nodup := by
  induction l with
  | nil => intro seen; simp [dedupFirstGo]
  | cons a l ih =>
    intro seen
    by_cases h : a ∈ seen
    · rw [dedupFirstGo]; simpa [h] using ih seen
    · rw [dedupFirstGo]
      simp only [h, if_neg, not_false_iff, List.nodup_cons]
      refine ⟨fun hmem => ?_, ih (a :: seen)⟩
      have := (mem_dedupFirstGo a l (a :: seen)).1 hmem
      exact this.2 (List.mem_cons_self a seen)

theorem nodup_dedupFirst {α : Type _} [DecidableEq α] (l : List α) :
    (dedupFirst l).Nodup := nodup_dedupFirstGo l []

theorem foldl_min_le_init (t : List Nat) : ∀ a : Nat, t.foldl min a ≤ a := by
  induction t with
  | nil => intro a; simp
  | cons h t ih =>
    intro a
    calc t.foldl min (min a h) ≤ min a h := ih (min a h)
    _ ≤ a := Nat.min_le_left a h

theorem foldl_min_le_mem (t : List Nat) :
    ∀ a x, x ∈ t → t.foldl min a ≤ x := by
  induction t with
  | nil => intro a x hx; cases hx
  | cons h t ih =>
    intro a x hx
    rcases List.mem_cons.1 hx with rfl | hx
    · calc t.foldl min (min a x) ≤ min a x := foldl_min_le_init t (min a x)
      _ ≤ x := Nat.min_le_right a x
    · exact ih (min a h) x hx

theorem foldl_min_mem_or (t : List Nat) :
    ∀ a, t.foldl min a = a ∨ t.foldl min a ∈ t := by
  induction t with
  | nil => intro a; exact Or.inl rfl
  | cons h t ih =>
    intro a
    rcases ih (min a h) with heq | hmem
    · rw [List.foldl_cons, heq]
      rcases Nat.le_total a h with hle | hle
      · exact Or.inl (Nat.min_eq_left hle)
      · rw [Nat.min_eq_right hle]
        exact Or.inr (List.mem_cons_self h t)
    · exact Or.inr (List.mem_cons_of_mem h hmem)

theorem foldl_min_eq_of_le (t : List Nat) :
    ∀ a, (∀ x ∈ t, a ≤ x) → t.foldl min a = a := by
  induction t with
  | nil => intro a _; rfl
  | cons h t ih =>
    intro a ha
    rw [List.foldl_cons, Nat.min_eq_left (ha h (List.mem_cons_self h t))]
    exact ih a fun x hx => ha x (List.mem_cons_of_mem h hx)

theorem minList_le (l : List Nat) : ∀ x ∈ l, minList l ≤ x := by
  cases l with
  | nil => intro x hx; cases hx
  | cons h t =>
    intro x hx
    rcases List.mem_cons.1 hx with rfl | hx
    · exact foldl_min_le_init t x
    · exact foldl_min_le_mem t h x hx

theorem minList_mem (l : List Nat) (h : l ≠ []) : minList l ∈ l := by
  cases l with
  | nil => exact absurd rfl h
  | cons a t =>
    rcases foldl_min_mem_or t a with heq | hmem
    · rw [minList, heq]; exact List.mem_cons_self a t
    · exact List.mem_cons_of_mem a hmem

theorem map_eq_map_of_mem {α β : Type _} {f g : α → β} :
    ∀ {l : List α}, (∀ a ∈ l, f a = g a) → l.map f = l.map g := by
  intro l
  induction l with
  | nil => intro _; rfl
  | cons a l ih =>
    intro h
    simp only [List.map_cons, h a (List.mem_cons_self a l),
      ih fun x hx => h x (List.mem_cons_of_mem a hx)]

theorem filter_eq_self_of_mem {α : Type _} {p : α → Bool} :
    ∀ {l : List α}, (∀ a ∈ l, p a = true) → l.filter p = l := by
  intro l
  induction l with
  | nil => intro _; rfl
  | cons a l ih =>
    intro h
    rw [List.filter_cons, if_pos (h a (List.mem_cons_self a l)),
      ih fun x hx => h x (List.mem_cons_of_mem a hx)]

theorem eraseP_eq_filter_of_count {α : Type _} (p : α → Bool) :
    ∀ l : List α, l.countP p ≤ 1 → l.eraseP p = l.filter (fun a => ! p a) := by
  intro l
  induction l with
  | nil => intro _; rfl
  | cons a l ih =>
    intro h
    by_cases hp : p a = true
    · rw [List.eraseP_cons_of_pos hp, List.filter_cons]
      simp only [hp, Bool.not_true, if_neg, Bool.false_eq_true, not_false_iff]
      have hz : l.countP p = 0 := by
        have hc := List.countP_cons p a l
        rw [if_pos hp] at hc
        omega
      exact (filter_eq_self_of_mem fun x hx => by
        have := List.countP_eq_zero.1 hz x hx
        simp [this]).symm
    · have hp' : p a = false := Bool.eq_false_iff.2 hp
      rw [List.eraseP_cons_of_neg (by simp [hp']), List.filter_cons]
      simp only [hp', Bool.not_false, if_pos]
      rw [ih (by have hc := List.countP_cons p a l; rw [if_neg hp] at hc; omega)]

theorem countP_le_one_of_nodup_map {α β : Type _} (f : α → β) (v : β)
    [DecidableEq β] :
    ∀ l : List α, (l.map f).Nodup → l.countP (fun a => decide (f a = v)) ≤ 1 := by
  intro l
  induction l with
  | nil => intro _; simp
  | cons a l ih =>
    intro h
    rw [List.map_cons, List.nodup_cons] at h
    by_cases hv : f a = v
    · have hz : l.countP (fun a => decide (f a = v)) = 0 := by
        apply List.countP_eq_zero.2
        intro x hx
        simp only [decide_eq_true_eq]
        intro hfx
        exact h.1 (hv ▸ hfx ▸ List.mem_map_of_mem f hx)
      rw [List.countP_cons_of_pos _ _ (by simp [hv]), hz]
    · rw [List.countP_cons_of_neg _ _ (by simp [hv])]
      exact ih h.2

/-- Pointwise description of the `updateMany` / `save` / `deleteOne` pipeline
inside `unionSets`, over a list of rows keyed by `_id = parId` with unique
ids: the composite rewrites the `newR` row to the merged document `mg`,
leaves every other row alone, and `deleteOne` drops the unique `oldR` row. -/
theorem pipeline_eq (oldR newR : Nat) (mg : Parent) (hmg : mg.id = newR) :
    ∀ l : List Parent, (∀ p ∈ l, p.id = p.parId) → (l.map (·.id)).Nodup →
      ((l.map (fun p => if p.parId = oldR then { p with parId := newR } else p)).map
          (fun p => if p.id = newR then mg else p)).eraseP
            (fun p => decide (p.id = oldR))
        = (l.filter (fun p => decide (p.id ≠ oldR))).map
            (fun p => if p.id = newR then mg else p) := by
  intro l
  induction l with
  | nil => intro _ _; rfl
  | cons p t ih =>
    intro h1 h2
    have hp : p.id = p.parId := h1 p (List.mem_cons_self p t)
    rw [List.map_cons, List.nodup_cons] at h2
    have hta : ∀ q ∈ t, q.id ≠ p.id := by
      intro q hq hqe
      exact h2.1 (hqe ▸ List.mem_map_of_mem (·.id) hq)
    have h1t : ∀ q ∈ t, q.id = q.parId :=
      fun q hq => h1 q (List.mem_cons_of_mem p hq)
    simp only [List.map_cons, List.filter_cons]
    by_cases hpo : p.id = oldR
    · -- the head row is the one `deleteOne` removes
      have hparo : p.parId = oldR := hp ▸ hpo
      have hnohit : ∀ q ∈ t, q.id ≠ oldR := fun q hq => hpo ▸ hta q hq
      have hmapf1 : t.map
          (fun p => if p.parId = oldR then { p with parId := newR } else p) = t := by
        have hq : ∀ q ∈ t,
            (if q.parId = oldR then { q with parId := newR } else q) = id q := by
          intro q hq
          rw [if_neg (by rw [← h1t q hq]; exact hnohit q hq)]
          rfl
        rw [map_eq_map_of_mem hq, List.map_id]
      have hfilter : t.filter (fun p => decide (p.id ≠ oldR)) = t :=
        filter_eq_self_of_mem fun q hq => by simp [hnohit q hq]
      rw [if_pos hparo, if_neg (show ¬ decide (p.id ≠ oldR) = true by simp [hpo]),
        hmapf1, hfilter]
      -- the rewritten head matches the deletion filter, so `eraseP` drops it
      by_cases hnew : p.id = newR
      · rw [if_pos (show ({ p with parId := newR } : Parent).id = newR from hnew)]
        exact List.eraseP_cons_of_pos (by
          simp only [decide_eq_true_eq, hmg]
          exact hnew.symm.trans hpo)
      · rw [if_neg (show ¬ ({ p with parId := newR } : Parent).id = newR from hnew)]
        exact List.eraseP_cons_of_pos (by simpa using hpo)
    · -- the head row survives
      have hparno : ¬ p.parId = oldR := fun hc => hpo (hp.trans hc)
      rw [if_neg hparno, if_pos (show decide (p.id ≠ oldR) = true by simp [hpo])]
      have herh : ¬ ((fun q => decide (q.id = oldR))
          (if p.id = newR then mg else p) = true) := by
        by_cases hn : p.id = newR
        · rw [if_pos hn]
          simp only [decide_eq_true_eq, hmg]
          exact fun hc => hpo (hn.trans hc)
        · rw [if_neg hn]
          simpa using hpo
      have herh' : decide ((if p.id = newR then mg else p).id = oldR) = false :=
        Bool.eq_false_iff.2 herh
      rw [List.eraseP_cons, herh']
      simp only [cond_false]
      rw [ih h1t h2.2, List.map_cons]

theorem find?_eq_some_of_unique {α : Type _} (p : α → Bool) (a : α) :
    ∀ l : List α, a ∈ l → p a = true → (∀ b ∈ l, p b = true → b = a) →
      l.find? p = some a := by
  intro l
  induction l with
  | nil => intro h; cases h
  | cons x l ih =>
    intro hmem hpa huniq
    by_cases hx : p x = true
    · rw [List.find?_cons_of_pos _ hx, huniq x (List.mem_cons_self x l) hx]
    · rw [List.find?_cons_of_neg _ hx]
      rcases List.mem_cons.1 hmem with rfl | hmem
      · exact absurd hpa hx
      · exact ih hmem hpa fun b hb => huniq b (List.mem_cons_of_mem x hb)

theorem find?_parId_eq {db : DB} {r : Nat} {p : Parent}
    (h : db.parents.find? (fun q => decide (q.parId = r)) = some p) :
    p ∈ db.parents ∧ p.parId = r := by
  refine ⟨List.mem_of_find?_eq_some h, ?_⟩
  have hs := List.find?_some h
  simpa using hs

theorem liveRoot_find? {db : DB} {r : Nat} (h : liveRoot db r) :
    ∃ p, db.parents.find? (fun q => decide (q.parId = r)) = some p := by
  obtain ⟨p, hp, hr⟩ := h
  cases hjoin : db.parents.find? (fun q => decide (q.parId = r)) with
  | some q => exact ⟨q, rfl⟩
  | none =>
    rw [List.find?_eq_none] at hjoin
    exact absurd (by simpa using hr) (by simpa using hjoin p hp)

/-- Distinct live rows always carry distinct roots in a well-keyed
database. -/
theorem parId_unique {db : DB} (hInv : DbInv db) :
    ∀ p ∈ db.parents, ∀ q ∈ db.parents, p.parId = q.parId → p = q := by
  intro p hp q hq hpq
  have hip : p.id = p.parId := (hInv.2.2.1 p hp).1
  have hiq : q.id = q.parId := (hInv.2.2.1 q hq).1
  exact List.inj_on_of_nodup_map hInv.2.1 hp hq (by rw [hip, hiq, hpq])

theorem min_cases_eq (a b : Nat) (h : ¬ min a b = a) : min a b = b :=
  (min_choice a b).resolve_left h

/-- Shape facts about the merged row. -/
theorem mergedRow_props (a b : Nat) (pA pB : Parent)
    (hA : RowInv pA) (hB : RowInv pB) (hpa : pA.parId = a) (hpb : pB.parId = b) :
    (mergedRow a b pA pB).id = min a b ∧
    (mergedRow a b pA pB).parId = min a b ∧
    (∀ c, c ∈ (mergedRow a b pA pB).childIds ↔ c ∈ pA.childIds ∨ c ∈ pB.childIds) ∧
    RowInv (mergedRow a b pA pB) := by
  by_cases hm : min a b = a
  · simp only [mergedRow, if_pos hm]
    have hid : pA.id = min a b := by rw [hA.1, hpa, hm]
    have hpar : pA.parId = min a b := by rw [hpa, hm]
    refine ⟨hid, hpar, ?_, ?_, nodup_dedupFirst _, ?_, ?_⟩
    · intro c
      rw [mem_dedupFirst, List.mem_append]
    · rw [hA.1]
    · rw [mem_dedupFirst, List.mem_append]
      exact Or.inl hA.2.2.1
    · intro c hc
      rw [mem_dedupFirst, List.mem_append] at hc
      rcases hc with hc | hc
      · exact hA.2.2.2 c hc
      · calc pA.parId = min a b := hpar
          _ ≤ b := min_le_right a b
          _ = pB.parId := hpb.symm
          _ ≤ c := hB.2.2.2 c hc
  · have hmb : min a b = b := min_cases_eq a b hm
    simp only [mergedRow, if_neg hm]
    have hid : pB.id = min a b := by rw [hB.1, hpb, hmb]
    have hpar : pB.parId = min a b := by rw [hpb, hmb]
    refine ⟨hid, hpar, ?_, ?_, nodup_dedupFirst _, ?_, ?_⟩
    · intro c
      rw [mem_dedupFirst, List.mem_append]
      exact Or.comm
    · rw [hB.1]
    · rw [mem_dedupFirst, List.mem_append]
      exact Or.inl hB.2.2.1
    · intro c hc
      rw [mem_dedupFirst, List.mem_append] at hc
      rcases hc with hc | hc
      · exact hB.2.2.2 c hc
      · calc pB.parId = min a b := hpar
          _ ≤ a := min_le_left a b
          _ = pA.parId := hpa.symm
          _ ≤ c := hA.2.2.2 c hc

/-- A `unionSets` call for which either lookup fails is a silent no-op. -/
theorem unionSets_not_found (db : DB) (a b : Nat)
    (h : db.parents.find? (fun p => decide (p.parId = a)) = none ∨
         db.parents.find? (fun p => decide (p.parId = b)) = none) :
    unionSets db a b = db := by
  unfold unionSets
  cases ha : db.parents.find? (fun p => decide (p.parId = a)) with
  | none => rfl
  | some pA =>
    cases hb : db.parents.find? (fun p => decide (p.parId = b)) with
    | none => rfl
    | some pB =>
      rcases h with h | h
      · rw [ha] at h; exact Option.noConfusion h
      · rw [hb] at h; exact Option.noConfusion h

/-- `unionSets` never touches the `Contact` collection. -/
theorem unionSets_contacts (db : DB) (a b : Nat) :
    (unionSets db a b).contacts = db.contacts := by
  unfold unionSets
  cases ha : db.parents.find? (fun p => decide (p.parId = a)) with
  | none => rfl
  | some pA =>
    cases hb : db.parents.find? (fun p => decide (p.parId = b)) with
    | none => rfl
    | some pB => rfl

/-- Characterization of a `unionSets` call whose two lookups succeed on a
well-keyed database: the contacts are kept, the old root's row is dropped and
the surviving root's row is rewritten to the merged row. -/
theorem unionSets_char (db : DB) (a b : Nat) (pA pB : Parent)
    (hids : (db.parents.map (·.id)).Nodup)
    (hkey : ∀ p ∈ db.parents, p.id = p.parId)
    (hA : db.parents.find? (fun p => decide (p.parId = a)) = some pA)
    (hB : db.parents.find? (fun p => decide (p.parId = b)) = some pB) :
    unionSets db a b =
      { contacts := db.contacts
        parents := (db.parents.filter (fun p =>
            decide (p.id ≠ (if min a b = a then b else a)))).map
          (fun p => if p.id = min a b then mergedRow a b pA pB else p) } := by
  have hpaF := find?_parId_eq hA
  have hpbF := find?_parId_eq hB
  have hpaid : pA.id = a := (hkey pA hpaF.1).trans hpaF.2
  have hpbid : pB.id = b := (hkey pB hpbF.1).trans hpbF.2
  have hNid : (if min a b = a then pA else pB).id = min a b := by
    by_cases hm : min a b = a
    · rw [if_pos hm, hpaid, hm]
    · rw [if_neg hm, hpbid, min_cases_eq a b hm]
  have hOid : (if min a b = a then pB else pA).id = (if min a b = a then b else a) := by
    by_cases hm : min a b = a
    · rw [if_pos hm, if_pos hm, hpbid]
    · rw [if_neg hm, if_neg hm, hpaid]
  have hmgid : (mergedRow a b pA pB).id = min a b := by
    rw [mergedRow]
    exact hNid
  unfold unionSets
  rw [hA, hB]
  show (⟨db.contacts,
    ((db.parents.map (fun p =>
        if p.parId = (if min a b = a then b else a) then { p with parId := min a b }
        else p)).map
      (fun p => if p.id = (if min a b = a then pA else pB).id then mergedRow a b pA pB
        else p)).eraseP
      (fun p => decide (p.id = (if min a b = a then pB else pA).id))⟩ : DB) = _
  simp only [hNid, hOid]
  simp only [DB.mk.injEq, true_and]
  exact pipeline_eq (if min a b = a then b else a) (min a b)
    (mergedRow a b pA pB) hmgid db.parents hkey hids

theorem newParent_id (a b : Nat) (pA pB : Parent)
    (hpaid : pA.id = a) (hpbid : pB.id = b) :
    (if min a b = a then pA else pB).id = min a b := by
  by_cases hm : min a b = a
  · rw [if_pos hm, hpaid, hm]
  · rw [if_neg hm, hpbid, min_cases_eq a b hm]

theorem oldRoot_ne_min (a b : Nat) (hne : a ≠ b) :
    (if min a b = a then b else a) ≠ min a b := by
  by_cases hm : min a b = a
  · rw [if_pos hm, hm]
    exact fun hba => hne hba.symm
  · rw [if_neg hm, min_cases_eq a b hm]
    exact hne

theorem ne_minOld_of_ne (a b r : Nat) (hra : r ≠ a) (hrb : r ≠ b) :
    r ≠ min a b ∧ r ≠ (if min a b = a then b else a) := by
  constructor
  · rcases min_choice a b with hm | hm <;> rw [hm] <;> assumption
  · by_cases hm : min a b = a
    · rw [if_pos hm]; exact hrb
    · rw [if_neg hm]; exact hra

/-- The unique-row reading of `membersOf` in a well-keyed database. -/
theorem membersOf_row {db : DB} (hInv : DbInv db) (p : Parent) (hp : p ∈ db.parents) :
    ∀ c, membersOf db p.parId c ↔ c ∈ p.childIds := by
  intro c
  constructor
  · rintro ⟨q, hq, hqp, hc⟩
    rwa [parId_unique hInv q hq p hp hqp] at hc
  · intro hc
    exact ⟨p, hp, rfl, hc⟩

/-- Membership in the parents after a completed union with distinct roots:
the merged row, or an untouched row whose root is neither `a` nor `b`. -/
theorem unionSets_mem (db : DB) (a b : Nat) (pA pB : Parent)
    (hInv : DbInv db) (hne : a ≠ b)
    (hA : db.parents.find? (fun p => decide (p.parId = a)) = some pA)
    (hB : db.parents.find? (fun p => decide (p.parId = b)) = some pB) :
    ∀ q, q ∈ (unionSets db a b).parents ↔
      q = mergedRow a b pA pB ∨ (q ∈ db.parents ∧ q.parId ≠ a ∧ q.parId ≠ b) := by
  obtain ⟨hc, hpid, hrow, hsub⟩ := hInv
  have hkey : ∀ p ∈ db.parents, p.id = p.parId := fun p hp => (hrow p hp).1
  have hpaF := find?_parId_eq hA
  have hpbF := find?_parId_eq hB
  have hpaid : pA.id = a := (hkey pA hpaF.1).trans hpaF.2
  have hpbid : pB.id = b := (hkey pB hpbF.1).trans hpbF.2
  have hNid := newParent_id a b pA pB hpaid hpbid
  rw [unionSets_char db a b pA pB hpid hkey hA hB]
  intro q
  constructor
  · intro hq
    obtain ⟨p, hpf, rfl⟩ := List.mem_map.1 hq
    obtain ⟨hpmem, hpfilt⟩ := List.mem_filter.1 hpf
    have hpold : p.id ≠ (if min a b = a then b else a) := by simpa using hpfilt
    by_cases hpm : p.id = min a b
    · rw [if_pos hpm]
      exact Or.inl rfl
    · rw [if_neg hpm]
      have hpp := hkey p hpmem
      refine Or.inr ⟨hpmem, ?_, ?_⟩
      · intro hpa
        by_cases hm : min a b = a
        · exact hpm (hpp.trans (hpa.trans hm.symm))
        · exact hpold (hpp.trans (by rw [if_neg hm, hpa]))
      · intro hpb
        by_cases hm : min a b = a
        · exact hpold (hpp.trans (by rw [if_pos hm, hpb]))
        · exact hpm (hpp.trans (hpb.trans (min_cases_eq a b hm).symm))
  · rintro (rfl | ⟨hqmem, hqa, hqb⟩)
    · apply List.mem_map.2
      refine ⟨if min a b = a then pA else pB, List.mem_filter.2 ⟨?_, ?_⟩, ?_⟩
      · by_cases hm : min a b = a
        · rw [if_pos hm]; exact hpaF.1
        · rw [if_neg hm]; exact hpbF.1
      · simp only [decide_eq_true_eq, hNid]
        exact fun hcon => oldRoot_ne_min a b hne hcon.symm
      · rw [if_pos hNid]
    · apply List.mem_map.2
      have hqid := hkey q hqmem
      have hcover := ne_minOld_of_ne a b q.parId hqa hqb
      refine ⟨q, List.mem_filter.2 ⟨hqmem, ?_⟩, ?_⟩
      · simp only [decide_eq_true_eq]
        exact fun hcon => hcover.2 (hqid ▸ hcon)
      · rw [if_neg (fun hcon => hcover.1 (hqid ▸ hcon))]

/-- `unionSets` preserves database well-formedness, for arbitrary
arguments. -/
theorem unionSets_DbInv (db : DB) (a b : Nat) (h : DbInv db) :
    DbInv (unionSets db a b) := by
  cases ha : db.parents.find? (fun p => decide (p.parId = a)) with
  | none => rw [unionSets_not_found db a b (Or.inl ha)]; exact h
  | some pA =>
  cases hb : db.parents.find? (fun p => decide (p.parId = b)) with
  | none => rw [unionSets_not_found db a b (Or.inr hb)]; exact h
  | some pB =>
  obtain ⟨hc, hpid, hrow, hsub⟩ := h
  have hkey : ∀ p ∈ db.parents, p.id = p.parId := fun p hp => (hrow p hp).1
  have hpaF := find?_parId_eq ha
  have hpbF := find?_parId_eq hb
  have hmp := mergedRow_props a b pA pB (hrow pA hpaF.1) (hrow pB hpbF.1) hpaF.2 hpbF.2
  rw [unionSets_char db a b pA pB hpid hkey ha hb]
  have hreplid : ∀ p : Parent,
      ((if p.id = min a b then mergedRow a b pA pB else p).id) = p.id := by
    intro p
    by_cases hpm : p.id = min a b
    · rw [if_pos hpm, hmp.1, hpm]
    · rw [if_neg hpm]
  refine ⟨hc, ?_, ?_, ?_⟩
  · show (((db.parents.filter (fun p =>
        decide (p.id ≠ (if min a b = a then b else a)))).map (fun p =>
          if p.id = min a b then mergedRow a b pA pB else p)).map (·.id)).Nodup
    rw [List.map_map]
    have : (db.parents.filter (fun p =>
        decide (p.id ≠ (if min a b = a then b else a)))).map ((·.id) ∘ (fun p =>
          if p.id = min a b then mergedRow a b pA pB else p)) =
        (db.parents.filter (fun p =>
          decide (p.id ≠ (if min a b = a then b else a)))).map (·.id) :=
      map_eq_map_of_mem fun p _ => hreplid p
    rw [this]
    exact List.Nodup.sublist
      (List.Sublist.map (fun p : Parent => p.id) (List.filter_sublist db.parents)) hpid
  · intro q hq
    obtain ⟨p, hpf, rfl⟩ := List.mem_map.1 hq
    have hpmem := (List.mem_filter.1 hpf).1
    by_cases hpm : p.id = min a b
    · rw [if_pos hpm]; exact hmp.2.2.2
    · rw [if_neg hpm]; exact hrow p hpmem
  · intro q hq c hcq
    obtain ⟨p, hpf, rfl⟩ := List.mem_map.1 hq
    have hpmem := (List.mem_filter.1 hpf).1
    by_cases hpm : p.id = min a b
    · rw [if_pos hpm] at hcq
      rcases (hmp.2.2.1 c).1 hcq with hca | hcb
      · exact hsub pA hpaF.1 c hca
      · exact hsub pB hpbF.1 c hcb
    · rw [if_neg hpm] at hcq
      exact hsub p hpmem c hcq

theorem not_liveRoot_find? {db : DB} {r : Nat} (h : ¬ liveRoot db r) :
    db.parents.find? (fun p => decide (p.parId = r)) = none := by
  rw [List.find?_eq_none]
  intro p hp
  simp only [decide_eq_true_eq]
  exact fun hr => h ⟨p, hp, hr⟩

/-- `unionSets` with distinct arguments preserves the partition property. -/
theorem unionSets_PartitionInv (db : DB) (a b : Nat) (hne : a ≠ b)
    (hInv : DbInv db) (hp : PartitionInv db) :
    PartitionInv (unionSets db a b) := by
  cases ha : db.parents.find? (fun p => decide (p.parId = a)) with
  | none => rw [unionSets_not_found db a b (Or.inl ha)]; exact hp
  | some pA =>
  cases hb : db.parents.find? (fun p => decide (p.parId = b)) with
  | none => rw [unionSets_not_found db a b (Or.inr hb)]; exact hp
  | some pB =>
  have hmem := unionSets_mem db a b pA pB hInv hne ha hb
  have hpaF := find?_parId_eq ha
  have hpbF := find?_parId_eq hb
  have hmp := mergedRow_props a b pA pB (hInv.2.2.1 pA hpaF.1) (hInv.2.2.1 pB hpbF.1)
    hpaF.2 hpbF.2
  intro cid hcid
  rw [unionSets_contacts] at hcid
  obtain ⟨P, hPmem, hPc, hPuniq⟩ := hp cid hcid
  by_cases hPab : P.parId = a ∨ P.parId = b
  · refine ⟨mergedRow a b pA pB, (hmem _).2 (Or.inl rfl), ?_, ?_⟩
    · rw [hmp.2.2.1]
      rcases hPab with hPa | hPb
      · have hPA : P = pA := parId_unique hInv P hPmem pA hpaF.1 (by rw [hPa, hpaF.2])
        exact Or.inl (hPA ▸ hPc)
      · have hPB : P = pB := parId_unique hInv P hPmem pB hpbF.1 (by rw [hPb, hpbF.2])
        exact Or.inr (hPB ▸ hPc)
    · intro q hq hcq
      rcases (hmem q).1 hq with rfl | ⟨hqmem, hqa, hqb⟩
      · rfl
      · exfalso
        have hqP : q = P := hPuniq q hqmem hcq
        rcases hPab with hPa | hPb
        · exact hqa (by rw [hqP, hPa])
        · exact hqb (by rw [hqP, hPb])
  · push_neg at hPab
    refine ⟨P, (hmem P).2 (Or.inr ⟨hPmem, hPab.1, hPab.2⟩), hPc, ?_⟩
    intro q hq hcq
    rcases (hmem q).1 hq with rfl | ⟨hqmem, _, _⟩
    · exfalso
      rcases (hmp.2.2.1 cid).1 hcq with hca | hcb
      · exact hPab.1 ((hPuniq pA hpaF.1 hca) ▸ hpaF.2)
      · exact hPab.2 ((hPuniq pB hpbF.1 hcb) ▸ hpbF.2)
    · exact hPuniq q hqmem hcq

theorem unionSets_live_min (db : DB) (a b : Nat) (pA pB : Parent)
    (hInv : DbInv db) (hne : a ≠ b)
    (hA : db.parents.find? (fun p => decide (p.parId = a)) = some pA)
    (hB : db.parents.find? (fun p => decide (p.parId = b)) = some pB) :
    liveRoot (unionSets db a b) (min a b) := by
  have hmem := unionSets_mem db a b pA pB hInv hne hA hB
  have hpaF := find?_parId_eq hA
  have hpbF := find?_parId_eq hB
  have hmp := mergedRow_props a b pA pB (hInv.2.2.1 pA hpaF.1) (hInv.2.2.1 pB hpbF.1)
    hpaF.2 hpbF.2
  exact ⟨mergedRow a b pA pB, (hmem _).2 (Or.inl rfl), hmp.2.1⟩

theorem unionSets_members_min (db : DB) (a b : Nat) (pA pB : Parent)
    (hInv : DbInv db) (hne : a ≠ b)
    (hA : db.parents.find? (fun p => decide (p.parId = a)) = some pA)
    (hB : db.parents.find? (fun p => decide (p.parId = b)) = some pB) :
    ∀ c, membersOf (unionSets db a b) (min a b) c ↔
      membersOf db a c ∨ membersOf db b c := by
  have hmem := unionSets_mem db a b pA pB hInv hne hA hB
  have hpaF := find?_parId_eq hA
  have hpbF := find?_parId_eq hB
  have hmp := mergedRow_props a b pA pB (hInv.2.2.1 pA hpaF.1) (hInv.2.2.1 pB hpbF.1)
    hpaF.2 hpbF.2
  intro c
  constructor
  · rintro ⟨q, hq, hqpar, hcq⟩
    rcases (hmem q).1 hq with rfl | ⟨hqmem, hqa, hqb⟩
    · rcases (hmp.2.2.1 c).1 hcq with hca | hcb
      · exact Or.inl ⟨pA, hpaF.1, hpaF.2, hca⟩
      · exact Or.inr ⟨pB, hpbF.1, hpbF.2, hcb⟩
    · exfalso
      rcases min_choice a b with hm | hm
      · exact hqa (hqpar.trans hm)
      · exact hqb (hqpar.trans hm)
  · rintro (hma | hmb)
    · have hca : c ∈ pA.childIds := by
        have := membersOf_row ⟨hInv.1, hInv.2.1, hInv.2.2.1, hInv.2.2.2⟩ pA hpaF.1 c
        rw [hpaF.2] at this
        exact this.1 hma
      exact ⟨mergedRow a b pA pB, (hmem _).2 (Or.inl rfl), hmp.2.1,
        (hmp.2.2.1 c).2 (Or.inl hca)⟩
    · have hcb : c ∈ pB.childIds := by
        have := membersOf_row ⟨hInv.1, hInv.2.1, hInv.2.2.1, hInv.2.2.2⟩ pB hpbF.1 c
        rw [hpbF.2] at this
        exact this.1 hmb
      exact ⟨mergedRow a b pA pB, (hmem _).2 (Or.inl rfl), hmp.2.1,
        (hmp.2.2.1 c).2 (Or.inr hcb)⟩

theorem unionSets_dead (db : DB) (a b : Nat) (pA pB : Parent)
    (hInv : DbInv db) (hne : a ≠ b)
    (hA : db.parents.find? (fun p => decide (p.parId = a)) = some pA)
    (hB : db.parents.find? (fun p => decide (p.parId = b)) = some pB) :
    ∀ r, (r = a ∨ r = b) → r ≠ min a b → ¬ liveRoot (unionSets db a b) r := by
  have hmem := unionSets_mem db a b pA pB hInv hne hA hB
  have hpaF := find?_parId_eq hA
  have hpbF := find?_parId_eq hB
  have hmp := mergedRow_props a b pA pB (hInv.2.2.1 pA hpaF.1) (hInv.2.2.1 pB hpbF.1)
    hpaF.2 hpbF.2
  rintro r hr hrm ⟨q, hq, hqp⟩
  rcases (hmem q).1 hq with rfl | ⟨hqmem, hqa, hqb⟩
  · exact hrm (hqp ▸ hmp.2.1)
  · rcases hr with rfl | rfl
    · exact hqa hqp
    · exact hqb hqp

theorem unionSets_untouched (db : DB) (a b : Nat) (pA pB : Parent)
    (hInv : DbInv db) (hne : a ≠ b)
    (hA : db.parents.find? (fun p => decide (p.parId = a)) = some pA)
    (hB : db.parents.find? (fun p => decide (p.parId = b)) = some pB) :
    ∀ q : Parent, q.parId ≠ a → q.parId ≠ b →
      (q ∈ (unionSets db a b).parents ↔ q ∈ db.parents) := by
  have hmem := unionSets_mem db a b pA pB hInv hne hA hB
  have hpaF := find?_parId_eq hA
  have hpbF := find?_parId_eq hB
  have hmp := mergedRow_props a b pA pB (hInv.2.2.1 pA hpaF.1) (hInv.2.2.1 pB hpbF.1)
    hpaF.2 hpbF.2
  intro q hqa hqb
  rw [hmem q]
  constructor
  · rintro (rfl | ⟨hq, _, _⟩)
    · exfalso
      rcases min_choice a b with hm | hm
      · exact hqa (hmp.2.1.trans hm)
      · exact hqb (hmp.2.1.trans hm)
    · exact hq
  · intro hq
    exact Or.inr ⟨hq, hqa, hqb⟩

/-- Repeating a `unionSets` call is a no-op on the state. -/
theorem unionSets_idem (db : DB) (a b : Nat) (hInv : DbInv db) :
    unionSets (unionSets db a b) a b = unionSets db a b := by
  cases ha : db.parents.find? (fun p => decide (p.parId = a)) with
  | none =>
    rw [unionSets_not_found db a b (Or.inl ha)]
    exact unionSets_not_found db a b (Or.inl ha)
  | some pA =>
  cases hb : db.parents.find? (fun p => decide (p.parId = b)) with
  | none =>
    rw [unionSets_not_found db a b (Or.inr hb)]
    exact unionSets_not_found db a b (Or.inr hb)
  | some pB =>
  by_cases hne : a = b
  · -- self-union deletes the row, after which the lookup fails
    subst hne
    have hkey : ∀ p ∈ db.parents, p.id = p.parId := fun p hp => (hInv.2.2.1 p hp).1
    have hchar := unionSets_char db a a pA pB hInv.2.1 hkey ha hb
    apply unionSets_not_found
    left
    apply not_liveRoot_find?
    rintro ⟨q, hq, hqp⟩
    rw [hchar] at hq
    obtain ⟨p, hpf, rfl⟩ := List.mem_map.1 hq
    obtain ⟨hpmem, hpfilt⟩ := List.mem_filter.1 hpf
    have hpne : p.id ≠ a := by
      simpa [min_self] using hpfilt
    have hpm : ¬ p.id = min a a := by rwa [min_self]
    rw [if_neg hpm] at hqp
    exact hpne ((hkey p hpmem).trans hqp)
  · -- the larger root is dead after the first union
    have hdead := unionSets_dead db a b pA pB hInv hne ha hb
    by_cases hm : min a b = a
    · have : ¬ liveRoot (unionSets db a b) b := by
        apply hdead b (Or.inr rfl)
        rw [hm]
        exact fun hba => hne hba.symm
      exact unionSets_not_found _ a b (Or.inr (not_liveRoot_find? this))
    · have : ¬ liveRoot (unionSets db a b) a := by
        apply hdead a (Or.inl rfl)
        rw [min_cases_eq a b hm]
        exact hne
      exact unionSets_not_found _ a b (Or.inl (not_liveRoot_find? this))

theorem unionFold_nil (acc : DB × Nat) : unionFold acc [] = acc := rfl

theorem unionFold_cons (acc : DB × Nat) (r : Nat) (rs : List Nat) :
    unionFold acc (r :: rs) = unionFold (unionFoldStep acc r) rs := rfl

/-- Transfer of `membersOf` across a union, for roots untouched by it. -/
theorem unionSets_members_other (db : DB) (a b : Nat) (pA pB : Parent)
    (hInv : DbInv db) (hne : a ≠ b)
    (hA : db.parents.find? (fun p => decide (p.parId = a)) = some pA)
    (hB : db.parents.find? (fun p => decide (p.parId = b)) = some pB) :
    ∀ r, r ≠ a → r ≠ b →
      ∀ c, membersOf (unionSets db a b) r c ↔ membersOf db r c := by
  intro r hra hrb c
  constructor
  · rintro ⟨q, hq, hqp, hcq⟩
    exact ⟨q, (unionSets_untouched db a b pA pB hInv hne hA hB q
      (hqp ▸ hra) (hqp ▸ hrb)).1 hq, hqp, hcq⟩
  · rintro ⟨q, hq, hqp, hcq⟩
    exact ⟨q, (unionSets_untouched db a b pA pB hInv hne hA hB q
      (hqp ▸ hra) (hqp ▸ hrb)).2 hq, hqp, hcq⟩

/-- Main induction for the union loop: folding `unionSets` over a
duplicate-free list of live roots converges to a single surviving root — the
minimum of the accumulator and the list — whose member set is the union of
all the folded sets, leaving every other set untouched.  The final
hypothesis is satisfied by both call shapes: the spec's left fold (the
accumulator never reappears in the list) and `/identify`'s loop (the
accumulator is the precomputed minimum). -/
theorem unionFold_spec :
    ∀ (rs : List Nat) (db : DB) (acc : Nat),
      DbInv db → liveRoot db acc → rs.Nodup →
      (∀ r ∈ rs, r ≠ acc → liveRoot db r) →
      (acc ∉ rs ∨ ∀ r ∈ rs, acc ≤ r) →
      (unionFold (db, acc) rs).2 = minList (acc :: rs) ∧
      (unionFold (db, acc) rs).1.contacts = db.contacts ∧
      DbInv (unionFold (db, acc) rs).1 ∧
      (PartitionInv db → PartitionInv (unionFold (db, acc) rs).1) ∧
      liveRoot (unionFold (db, acc) rs).1 (unionFold (db, acc) rs).2 ∧
      (∀ c, membersOf (unionFold (db, acc) rs).1 (unionFold (db, acc) rs).2 c ↔
        membersOf db acc c ∨ ∃ r ∈ rs, membersOf db r c) ∧
      (∀ q ∈ (unionFold (db, acc) rs).1.parents,
        q.parId = (unionFold (db, acc) rs).2 ∨
          (q ∈ db.parents ∧ q.parId ≠ acc ∧ q.parId ∉ rs)) ∧
      (∀ q : Parent, q.parId ≠ acc → q.parId ∉ rs →
        (q ∈ (unionFold (db, acc) rs).1.parents ↔ q ∈ db.parents)) := by
  intro rs
  induction rs with
  | nil =>
    intro db acc hInv hliveacc _ _ _
    refine ⟨rfl, rfl, hInv, fun hp => hp, hliveacc, ?_, ?_, ?_⟩
    · intro c
      simp [unionFold_nil]
    · intro q hq
      by_cases hqa : q.parId = acc
      · exact Or.inl hqa
      · exact Or.inr ⟨hq, hqa, by simp⟩
    · intro q _ _
      exact Iff.rfl
  | cons r rest ih =>
    intro db acc hInv hliveacc hnodup hliveall hmode
    rw [List.nodup_cons] at hnodup
    by_cases hra : r = acc
    · -- the loop guard skips this root
      subst hra
      have hstep : unionFoldStep (db, r) r = (db, r) := by
        rw [unionFoldStep, if_neg (fun h => h rfl)]
      have hnotin : r ∉ rest := hnodup.1
      obtain ⟨ih1, ih2, ih3, ih4, ih5, ih6, ih7, ih8⟩ :=
        ih db r hInv hliveacc hnodup.2
          (fun r' hr' hne => hliveall r' (List.mem_cons_of_mem r hr') hne)
          (Or.inl hnotin)
      rw [unionFold_cons, hstep]
      refine ⟨?_, ih2, ih3, ih4, ih5, ?_, ?_, ?_⟩
      · rw [ih1]
        show rest.foldl min r = (r :: rest).foldl min r
        rw [List.foldl_cons, min_self]
      · intro c
        rw [ih6 c]
        constructor
        · rintro (h | ⟨r', hr', h⟩)
          · exact Or.inl h
          · exact Or.inr ⟨r', List.mem_cons_of_mem r hr', h⟩
        · rintro (h | ⟨r', hr', h⟩)
          · exact Or.inl h
          · rcases List.mem_cons.1 hr' with rfl | hr'
            · exact Or.inl h
            · exact Or.inr ⟨r', hr', h⟩
      · intro q hq
        rcases ih7 q hq with h | ⟨hmem, hne, hnin⟩
        · exact Or.inl h
        · refine Or.inr ⟨hmem, hne, ?_⟩
          rw [List.mem_cons]
          rintro (h | h)
          · exact hne h
          · exact hnin h
      · intro q hne hnin
        exact ih8 q hne (fun h => hnin (List.mem_cons_of_mem r h))
    · -- a genuine union with the accumulator
      have hne' : acc ≠ r := fun h => hra h.symm
      have hliver : liveRoot db r := hliveall r (List.mem_cons_self r rest) hra
      obtain ⟨qA, hfA⟩ := liveRoot_find? hliveacc
      obtain ⟨qR, hfR⟩ := liveRoot_find? hliver
      have hD_inv := unionSets_DbInv db acc r hInv
      have hD_contacts := unionSets_contacts db acc r
      have hD_live := unionSets_live_min db acc r qA qR hInv hne' hfA hfR
      have hD_mem := unionSets_members_min db acc r qA qR hInv hne' hfA hfR
      have hD_other := unionSets_members_other db acc r qA qR hInv hne' hfA hfR
      have hD_untouched := unionSets_untouched db acc r qA qR hInv hne' hfA hfR
      have hD_rows := unionSets_mem db acc r qA qR hInv hne' hfA hfR
      have hqAF := find?_parId_eq hfA
      have hqRF := find?_parId_eq hfR
      have hmpD := mergedRow_props acc r qA qR (hInv.2.2.1 qA hqAF.1)
        (hInv.2.2.1 qR hqRF.1) hqAF.2 hqRF.2
      have hstep : unionFoldStep (db, acc) r = (unionSets db acc r, min acc r) := by
        rw [unionFoldStep, if_pos hra]
      have hnewmode : (min acc r ∉ rest) ∨ ∀ r' ∈ rest, min acc r ≤ r' := by
        rcases hmode with hnotin | hle
        · left
          rcases min_choice acc r with hm | hm
          · rw [hm]
            exact fun hc => hnotin (List.mem_cons_of_mem r hc)
          · rw [hm]
            exact hnodup.1
        · right
          exact fun r' hr' =>
            le_trans (min_le_left acc r) (hle r' (List.mem_cons_of_mem r hr'))
      have hnewlive : ∀ r' ∈ rest, r' ≠ min acc r → liveRoot (unionSets db acc r) r' := by
        intro r' hr' hne''
        have hr'r : r' ≠ r := fun h => hnodup.1 (h ▸ hr')
        by_cases hr'acc : r' = acc
        · exfalso
          rcases hmode with hnotin | hle
          · exact hnotin (List.mem_cons_of_mem r (hr'acc ▸ hr'))
          · exact hne'' (hr'acc.trans (min_eq_left (hle r (List.mem_cons_self r rest))).symm)
        · obtain ⟨q, hq, hqp⟩ := hliveall r' (List.mem_cons_of_mem r hr') hr'acc
          exact ⟨q, (hD_untouched q (hqp ▸ hr'acc) (hqp ▸ hr'r)).2 hq, hqp⟩
      obtain ⟨ih1, ih2, ih3, ih4, ih5, ih6, ih7, ih8⟩ :=
        ih (unionSets db acc r) (min acc r) hD_inv hD_live hnodup.2 hnewlive hnewmode
      rw [unionFold_cons, hstep]
      have hminrw : minList (acc :: r :: rest) = minList (min acc r :: rest) := rfl
      refine ⟨by rw [ih1, hminrw], ih2.trans hD_contacts, ih3, ?_, ih5, ?_, ?_, ?_⟩
      · intro hp
        exact ih4 (unionSets_PartitionInv db acc r hne' hInv hp)
      · -- member-set union composition
        intro c
        rw [ih6 c]
        constructor
        · rintro (h | ⟨r', hr', h⟩)
          · rcases (hD_mem c).1 h with h | h
            · exact Or.inl h
            · exact Or.inr ⟨r, List.mem_cons_self r rest, h⟩
          · have hr'r : r' ≠ r := fun hcon => hnodup.1 (hcon ▸ hr')
            by_cases hr'acc : r' = acc
            · rcases hmode with hnotin | hle
              · exact absurd (hr'acc ▸ hr') (fun hc => hnotin (List.mem_cons_of_mem r hc))
              · have hminacc : min acc r = acc :=
                  min_eq_left (hle r (List.mem_cons_self r rest))
                have h' : membersOf (unionSets db acc r) (min acc r) c := by
                  rw [hminacc]
                  exact hr'acc ▸ h
                rcases (hD_mem c).1 h' with h'' | h''
                · exact Or.inl h''
                · exact Or.inr ⟨r, List.mem_cons_self r rest, h''⟩
            · rw [hD_other r' hr'acc hr'r c] at h
              exact Or.inr ⟨r', List.mem_cons_of_mem r hr', h⟩
        · rintro (h | ⟨r', hr', h⟩)
          · exact Or.inl ((hD_mem c).2 (Or.inl h))
          · rcases List.mem_cons.1 hr' with rfl | hr'
            · exact Or.inl ((hD_mem c).2 (Or.inr h))
            · have hr'r : r' ≠ r := fun hcon => hnodup.1 (hcon ▸ hr')
              by_cases hr'acc : r' = acc
              · exact Or.inl ((hD_mem c).2 (Or.inl (hr'acc ▸ h)))
              · refine Or.inr ⟨r', hr', ?_⟩
                rw [hD_other r' hr'acc hr'r c]
                exact h
      · -- every surviving row is the final root's or an untouched outside row
        intro q hq
        rcases ih7 q hq with h | ⟨hmem, hneA, hnin⟩
        · exact Or.inl h
        · rcases (hD_rows q).1 hmem with rfl | ⟨hmem', hneacc, hner⟩
          · exact absurd hmpD.2.1 hneA
          · refine Or.inr ⟨hmem', hneacc, ?_⟩
            rw [List.mem_cons]
            rintro (h | h)
            · exact hner h
            · exact hnin h
      · -- rows outside all folded roots are untouched
        intro q hneacc hnin
        have hner : q.parId ≠ r := fun h => hnin (List.mem_cons.2 (Or.inl h))
        have hninrest : q.parId ∉ rest := fun h => hnin (List.mem_cons_of_mem r h)
        have hneA : q.parId ≠ min acc r := by
          rcases min_choice acc r with hm | hm
          · rw [hm]; exact hneacc
          · rw [hm]; exact hner
        exact (ih8 q hneA hninrest).trans (hD_untouched q hneacc hner)

/-- The union loop preserves well-formedness and the partition for arbitrary
accumulator and roots (its guard makes every union's arguments distinct). -/
theorem unionFold_preserves (rs : List Nat) :
    ∀ (db : DB) (acc : Nat), DbInv db →
      DbInv (unionFold (db, acc) rs).1 ∧
      (PartitionInv db → PartitionInv (unionFold (db, acc) rs).1) ∧
      (unionFold (db, acc) rs).1.contacts = db.contacts := by
  induction rs with
  | nil => intro db acc h; exact ⟨h, fun hp => hp, rfl⟩
  | cons r rest ih =>
    intro db acc h
    rw [unionFold_cons, unionFoldStep]
    by_cases hr : r ≠ acc
    · rw [if_pos hr]
      obtain ⟨a1, a2, a3⟩ := ih (unionSets db acc r) (min acc r) (unionSets_DbInv db acc r h)
      exact ⟨a1,
        fun hp => a2 (unionSets_PartitionInv db acc r (fun h' => hr h'.symm) h hp),
        a3.trans (unionSets_contacts db acc r)⟩
    · rw [if_neg hr]
      exact ih db acc h

/-- The `/add-contact` union loop over discovered roots preserves
well-formedness and the partition. -/
theorem rootsFold_preserves (rs : List Nat) (i : Nat) :
    ∀ db : DB, DbInv db →
      DbInv (rs.foldl (fun st root => if root ≠ i then unionSets st i root else st) db) ∧
      (PartitionInv db →
        PartitionInv (rs.foldl (fun st root =>
          if root ≠ i then unionSets st i root else st) db)) ∧
      (rs.foldl (fun st root =>
        if root ≠ i then unionSets st i root else st) db).contacts = db.contacts := by
  induction rs with
  | nil => intro db h; exact ⟨h, fun hp => hp, rfl⟩
  | cons r rest ih =>
    intro db h
    rw [List.foldl_cons]
    by_cases hr : r ≠ i
    · rw [if_pos hr]
      obtain ⟨a1, a2, a3⟩ := ih (unionSets db i r) (unionSets_DbInv db i r h)
      exact ⟨a1,
        fun hp => a2 (unionSets_PartitionInv db i r (fun h' => hr h'.symm) h hp),
        a3.trans (unionSets_contacts db i r)⟩
    · rw [if_neg hr]
      exact ih db h

/-- Creating a contact together with its singleton row preserves
well-formedness and the partition, provided the id is fresh. -/
theorem insert_singleton_pres (db : DB) (i : Nat) (c : Contact) (hci : c.id = i)
    (hfresh : i ∉ db.contacts.map (·.id)) (hInv : DbInv db) :
    DbInv ⟨db.contacts ++ [c], db.parents ++ [⟨i, i, [i]⟩]⟩ ∧
    (PartitionInv db →
      PartitionInv ⟨db.contacts ++ [c], db.parents ++ [⟨i, i, [i]⟩]⟩) := by
  obtain ⟨hc, hpid, hrow, hsub⟩ := hInv
  have hpfresh : i ∉ db.parents.map (·.id) := by
    intro hmem
    obtain ⟨p, hp, hpi⟩ := List.mem_map.1 hmem
    have h1 := (hrow p hp).1
    have h2 := (hrow p hp).2.2.1
    have h3 : p.id ∈ db.contacts.map (·.id) := by
      rw [h1]
      exact hsub p hp p.parId h2
    exact hfresh (hpi ▸ h3)
  constructor
  · refine ⟨?_, ?_, ?_, ?_⟩
    · rw [List.map_append, List.nodup_append]
      refine ⟨hc, by simp, ?_⟩
      intro x hx
      simp only [List.map_cons, List.map_nil, List.mem_singleton]
      intro hxc
      exact hfresh ((hxc.trans hci) ▸ hx)
    · rw [List.map_append, List.nodup_append]
      refine ⟨hpid, by simp, ?_⟩
      intro x hx
      simp only [List.map_cons, List.map_nil, List.mem_singleton]
      intro hxi
      exact hpfresh (hxi ▸ hx)
    · intro p hp
      rcases List.mem_append.1 hp with hp | hp
      · exact hrow p hp
      · rw [List.mem_singleton.1 hp]
        exact ⟨rfl, by simp, by simp, by simp⟩
    · intro p hp cid hcid
      rw [List.map_append]
      rcases List.mem_append.1 hp with hp | hp
      · exact List.mem_append_left _ (hsub p hp cid hcid)
      · rw [List.mem_singleton.1 hp] at hcid
        simp only [List.mem_singleton.1 hcid]
        apply List.mem_append_right
        simp [hci]
  · intro hpart cid hcid
    rw [List.map_append] at hcid
    rcases List.mem_append.1 hcid with hcid | hcid
    · obtain ⟨P, hPmem, hPc, hPuniq⟩ := hpart cid hcid
      refine ⟨P, List.mem_append_left _ hPmem, hPc, ?_⟩
      intro q hq hcq
      rcases List.mem_append.1 hq with hq | hq
      · exact hPuniq q hq hcq
      · exfalso
        rw [List.mem_singleton.1 hq] at hcq
        have : cid = i := by simpa using hcq
        exact hfresh (this ▸ hcid)
    · have hcidi : cid = i := by
        have : cid = c.id := by simpa using hcid
        exact this.trans hci
      subst hcidi
      refine ⟨⟨cid, cid, [cid]⟩, List.mem_append_right _ (by simp), by simp, ?_⟩
      intro q hq hcq
      rcases List.mem_append.1 hq with hq | hq
      · exfalso
        exact hfresh (hsub q hq cid hcq)
      · exact List.mem_singleton.1 hq
  
theorem le_foldr_max (l : List Nat) : ∀ x ∈ l, x ≤ l.foldr max 0 := by
  induction l with
  | nil => intro x hx; cases hx
  | cons a t ih =>
    intro x hx
    rcases List.mem_cons.1 hx with rfl | hx
    · exact le_max_left _ _
    · exact le_trans (ih x hx) (le_max_right a _)

/-- The id allocated by the no-match branch is strictly greater than every
existing contact id. -/
theorem newIdOf_gt (db : DB) : ∀ c ∈ db.contacts, c.id < newIdOf db := by
  intro c hc
  have h := le_foldr_max (db.contacts.map (·.id)) c.id (List.mem_map_of_mem (·.id) hc)
  rw [newIdOf]
  omega

theorem newIdOf_fresh (db : DB) : newIdOf db ∉ db.contacts.map (·.id) := by
  intro h
  obtain ⟨c, hcmem, hcid⟩ := List.mem_map.1 h
  have := newIdOf_gt db c hcmem
  omega

/-- `/add-contact` preserves well-formedness and the partition. -/
theorem addContact_preserves (db : DB) (req : AddReq) (now : Nat) (h : DbInv db) :
    DbInv (addContact db req now).1 ∧
    (PartitionInv db → PartitionInv (addContact db req now).1) := by
  obtain ⟨rid, rph, rem, rli, rlp⟩ := req
  have hfreshOf : ¬ db.contacts.any (fun c => decide (c.id = rid)) = true →
      rid ∉ db.contacts.map (·.id) := by
    intro h2 hm
    obtain ⟨c, hcmem, hcid⟩ := List.mem_map.1 hm
    exact h2 (List.any_eq_true.2 ⟨c, hcmem, by simp [hcid]⟩)
  cases rlp with
  | primary =>
    unfold addContact
    rw [if_neg (by simp)]
    by_cases h2 : db.contacts.any (fun c => decide (c.id = rid)) = true
    · rw [if_pos h2]
      exact ⟨h, fun hp => hp⟩
    · rw [if_neg h2]
      dsimp only
      obtain ⟨hi1, hi2⟩ := insert_singleton_pres db rid
        ⟨rid, rph, rem, rli, .primary, now, now⟩ rfl (hfreshOf h2) h
      obtain ⟨f1, f2, _⟩ := rootsFold_preserves _ rid _ hi1
      exact ⟨f1, fun hp => f2 (hi2 hp)⟩
  | secondary =>
    cases rli with
    | none =>
      unfold addContact
      rw [if_pos ⟨rfl, rfl⟩]
      exact ⟨h, fun hp => hp⟩
    | some l =>
      unfold addContact
      rw [if_neg (by simp)]
      by_cases h2 : db.contacts.any (fun c => decide (c.id = rid)) = true
      · rw [if_pos h2]
        exact ⟨h, fun hp => hp⟩
      · rw [if_neg h2]
        dsimp only
        obtain ⟨hi1, hi2⟩ := insert_singleton_pres db rid
          ⟨rid, rph, rem, some l, .secondary, now, now⟩ rfl (hfreshOf h2) h
        cases hf : (db.parents ++ [(⟨rid, rid, [rid]⟩ : Parent)]).find?
            (fun p => decide (l ∈ p.childIds)) with
        | none =>
          obtain ⟨f1, f2, _⟩ := rootsFold_preserves _ rid _ hi1
          exact ⟨f1, fun hp => f2 (hi2 hp)⟩
        | some ip =>
          dsimp only
          by_cases hip : ip.parId ≠ rid
          · rw [if_pos hip]
            have hu1 := unionSets_DbInv _ ip.parId rid hi1
            obtain ⟨f1, f2, _⟩ := rootsFold_preserves _ rid _ hu1
            exact ⟨f1, fun hp =>
              f2 (unionSets_PartitionInv _ ip.parId rid hip hi1 (hi2 hp))⟩
          · rw [if_neg hip]
            obtain ⟨f1, f2, _⟩ := rootsFold_preserves _ rid _ hi1
            exact ⟨f1, fun hp => f2 (hi2 hp)⟩

/-- `/identify` preserves well-formedness and the partition. -/
theorem identify_preserves (db : DB) (e p : Option String) (now : Nat) (h : DbInv db) :
    DbInv (identify db e p now).1 ∧
    (PartitionInv db → PartitionInv (identify db e p now).1) := by
  unfold identify
  by_cases hval : ¬ strTruthy e = true ∧ ¬ strTruthy p = true
  · rw [if_pos hval]
    exact ⟨h, fun hp => hp⟩
  · rw [if_neg hval]
    by_cases hm : (identifyMatches db e p).isEmpty = true
    · rw [if_pos hm]
      exact insert_singleton_pres db (newIdOf db)
        ⟨newIdOf db, p, e, none, .primary, now, now⟩ rfl (newIdOf_fresh db) h
    · rw [if_neg hm]
      dsimp only
      obtain ⟨f1, f2, _⟩ := unionFold_preserves _ db _ h
      exact ⟨f1, fun hp => f2 hp⟩

/-- Well-formedness holds in every reachable state, even with arbitrary
`unionSets` calls. -/
theorem reachable_DbInv {db : DB} (h : Reachable db) : DbInv db := by
  induction h with
  | init => exact (by decide)
  | add db req now _ ih => exact (addContact_preserves db req now ih).1
  | identifyStep db e p now _ ih => exact (identify_preserves db e p now ih).1
  | union db a b _ ih => exact unionSets_DbInv db a b ih

/-- Well-formedness and the partition hold in every state reachable with
distinct-argument unions. -/
theorem reachableD_inv {db : DB} (h : ReachableD db) : DbInv db ∧ PartitionInv db := by
  induction h with
  | init => exact ⟨by decide, by decide⟩
  | add db req now _ ih =>
    exact ⟨(addContact_preserves db req now ih.1).1,
      (addContact_preserves db req now ih.1).2 ih.2⟩
  | identifyStep db e p now _ ih =>
    exact ⟨(identify_preserves db e p now ih.1).1,
      (identify_preserves db e p now ih.1).2 ih.2⟩
  | union db a b hab _ ih =>
    exact ⟨unionSets_DbInv db a b ih.1,
      unionSets_PartitionInv db a b hab ih.1 ih.2⟩

theorem find?_decide_eq_some {α : Type _} {pr : α → Prop} [DecidablePred pr]
    {l : List α} {a : α} (h : l.find? (fun x => decide (pr x)) = some a) :
    a ∈ l ∧ pr a := by
  refine ⟨List.mem_of_find?_eq_some h, ?_⟩
  have hs := List.find?_some h
  simpa using hs

/-- The `/identify` union loop never touches the `Contact` collection. -/
theorem unionFold_contacts (rs : List Nat) :
    ∀ acc : DB × Nat, (unionFold acc rs).1.contacts = acc.1.contacts := by
  induction rs with
  | nil => intro acc; rfl
  | cons r rest ih =>
    intro acc
    rw [unionFold_cons, unionFoldStep]
    by_cases hr : r ≠ acc.2
    · rw [if_pos hr]
      exact (ih _).trans (unionSets_contacts acc.1 acc.2 r)
    · rw [if_neg hr]
      exact ih acc

/-- The `/add-contact` union loop never touches the `Contact` collection. -/
theorem rootsFold_contacts (rs : List Nat) (i : Nat) :
    ∀ db : DB, (rs.foldl (fun st root =>
      if root ≠ i then unionSets st i root else st) db).contacts = db.contacts := by
  induction rs with
  | nil => intro db; rfl
  | cons r rest ih =>
    intro db
    rw [List.foldl_cons]
    by_cases hr : r ≠ i
    · rw [if_pos hr]
      exact (ih _).trans (unionSets_contacts db i r)
    · rw [if_neg hr]
      exact ih db

theorem addContact_val_eq (db : DB) (req : AddReq) (now : Nat)
    (h1 : req.linkPrecedence = .secondary ∧ req.linkedId = none) :
    addContact db req now = (db, .redirectLinkedIdRequired) := by
  unfold addContact
  rw [if_pos h1]

theorem addContact_dup_eq (db : DB) (req : AddReq) (now : Nat)
    (h1 : ¬ (req.linkPrecedence = .secondary ∧ req.linkedId = none))
    (h2 : db.contacts.any (fun c => decide (c.id = req.id)) = true) :
    addContact db req now = (db, .redirectError) := by
  unfold addContact
  rw [if_neg h1, if_pos h2]

/-- On the success path, `/add-contact` persists exactly one new contact and
answers with the success redirect; the later unions only touch `Parent`. -/
theorem addContact_contacts_ok (db : DB) (req : AddReq) (now : Nat)
    (h1 : ¬ (req.linkPrecedence = .secondary ∧ req.linkedId = none))
    (h2 : ¬ db.contacts.any (fun c => decide (c.id = req.id)) = true) :
    (addContact db req now).1.contacts = db.contacts ++
      [⟨req.id, req.phoneNumber, req.email, req.linkedId,
        req.linkPrecedence, now, now⟩] ∧
    (addContact db req now).2 = .redirectOk := by
  obtain ⟨rid, rph, rem, rli, rlp⟩ := req
  cases rlp with
  | primary =>
    unfold addContact
    rw [if_neg h1, if_neg h2]
    dsimp only
    exact ⟨rootsFold_contacts _ rid _, rfl⟩
  | secondary =>
    cases rli with
    | none => exact absurd ⟨rfl, rfl⟩ h1
    | some l =>
      unfold addContact
      rw [if_neg h1, if_neg h2]
      dsimp only
      cases hf : (db.parents ++ [(⟨rid, rid, [rid]⟩ : Parent)]).find?
          (fun p => decide (l ∈ p.childIds)) with
      | none => exact ⟨rootsFold_contacts _ rid _, rfl⟩
      | some ip =>
        dsimp only
        by_cases hip : ip.parId ≠ rid
        · rw [if_pos hip]
          exact ⟨(rootsFold_contacts _ rid _).trans (unionSets_contacts _ _ _), rfl⟩
        · rw [if_neg hip]
          exact ⟨rootsFold_contacts _ rid _, rfl⟩

theorem identify_val_eq (db : DB) (e p : Option String) (now : Nat)
    (h : ¬ strTruthy e = true ∧ ¬ strTruthy p = true) :
    identify db e p now = (db, none) := by
  unfold identify
  rw [if_pos h]

theorem identify_nomatch_eq (db : DB) (e p : Option String) (now : Nat)
    (hval : ¬ (¬ strTruthy e = true ∧ ¬ strTruthy p = true))
    (hm : (identifyMatches db e p).isEmpty = true) :
    identify db e p now =
      (⟨db.contacts ++ [⟨newIdOf db, p, e, none, .primary, now, now⟩],
        db.parents ++ [⟨newIdOf db, newIdOf db, [newIdOf db]⟩]⟩,
       some ⟨none, newIdOf db,
         if strTruthy e then [e.getD ""] else [],
         if strTruthy p then [p.getD ""] else [], []⟩) := by
  unfold identify
  rw [if_neg hval, if_pos hm]

theorem identify_match_eq (db : DB) (e p : Option String) (now : Nat)
    (hval : ¬ (¬ strTruthy e = true ∧ ¬ strTruthy p = true))
    (hm : ¬ (identifyMatches db e p).isEmpty = true) :
    identify db e p now =
      (let matchedIds := (identifyMatches db e p).map (·.id)
       let parentRoots := (db.parents.filter (fun q =>
         matchedIds.any (fun mid => decide (mid ∈ q.childIds)))).map (·.parId)
       let rootsArr := dedupFirst parentRoots
       let baseRoot := minList rootsArr
       let folded := unionFold (db, baseRoot) rootsArr
       let base := folded.2
       let finalParent := folded.1.parents.find? (fun q => decide (q.parId = base))
       let idList := base :: ((finalParent.map (·.childIds)).getD [])
       let uniqueIds := dedupFirst idList
       (folded.1, some ⟨some base, base,
         dedupFirst (uniqueIds.filterMap (fun cid =>
           (folded.1.contacts.find? (fun c => decide (c.id = cid))).bind (fun d =>
             if strTruthy d.email then d.email else none))),
         dedupFirst (uniqueIds.filterMap (fun cid =>
           (folded.1.contacts.find? (fun c => decide (c.id = cid))).bind (fun d =>
             if strTruthy d.phoneNumber then d.phoneNumber else none))),
         idList.filter (fun cid => decide (cid ≠ base))⟩)) := by
  unfold identify
  rw [if_neg hval, if_neg hm]

/-- Membership in a single truthy-guarded aggregation cell. -/
theorem truthy_guard_eq (o : Option String) (s : String) :
    ((if strTruthy o then o else none) = some s) ↔ (o = some s ∧ s ≠ "") := by
  cases o with
  | none => simp [strTruthy]
  | some v =>
    by_cases hv : v = ""
    · subst hv
      constructor
      · intro h
        rw [strTruthy, if_neg (by simp)] at h
        exact Option.noConfusion h
      · rintro ⟨h1, h2⟩
        exact absurd (Option.some.inj h1).symm h2
    · constructor
      · intro h
        rw [strTruthy, if_pos (by simp [hv])] at h
        exact ⟨h, fun hs => hv ((Option.some.inj h).trans hs)⟩
      · rintro ⟨h1, _⟩
        rw [strTruthy, if_pos (by simp [hv])]
        exact h1

/-- Membership in the single-element response of the no-match branch. -/
theorem truthy_single_mem (o : Option String) (s : String) :
    (s ∈ (if strTruthy o then [o.getD ""] else [])) ↔ (o = some s ∧ s ≠ "") := by
  cases o with
  | none => simp [strTruthy]
  | some v =>
    by_cases hv : v = ""
    · subst hv
      rw [strTruthy, if_neg (by simp)]
      constructor
      · intro h; cases h
      · rintro ⟨h1, h2⟩
        exact absurd (Option.some.inj h1).symm h2
    · rw [strTruthy, if_pos (by simp [hv])]
      constructor
      · intro h
        have : s = v := List.mem_singleton.1 h
        exact ⟨by rw [this], fun hs => hv (this ▸ hs)⟩
      · rintro ⟨h1, _⟩
        rw [List.mem_singleton]
        exact (Option.some.inj h1).symm

/-- Left-fold batch union over distinct live roots: the minimum survives with
the union of all member sets, every other folded root dies, and all other
rows are untouched. -/
theorem batchUnion_spec (db : DB) (rs : List Nat)
    (hInv : DbInv db) (hnd : rs.Nodup) (hne : rs ≠ [])
    (hlive : ∀ r ∈ rs, liveRoot db r) :
    (batchUnion db rs).contacts = db.contacts ∧
    liveRoot (batchUnion db rs) (minList rs) ∧
    (∀ c, membersOf (batchUnion db rs) (minList rs) c ↔
      ∃ r ∈ rs, membersOf db r c) ∧
    (∀ x ∈ rs, x ≠ minList rs → ¬ liveRoot (batchUnion db rs) x) ∧
    (∀ q : Parent, q.parId ∉ rs →
      (q ∈ (batchUnion db rs).parents ↔ q ∈ db.parents)) ∧
    DbInv (batchUnion db rs) := by
  cases rs with
  | nil => exact absurd rfl hne
  | cons r0 rest =>
    rw [List.nodup_cons] at hnd
    obtain ⟨s1, s2, s3, s4, s5, s6, s7, s8⟩ :=
      unionFold_spec rest db r0 hInv (hlive r0 (List.mem_cons_self r0 rest)) hnd.2
        (fun r hr _ => hlive r (List.mem_cons_of_mem r0 hr)) (Or.inl hnd.1)
    have hbu : batchUnion db (r0 :: rest) = (unionFold (db, r0) rest).1 := rfl
    have hm : (unionFold (db, r0) rest).2 = minList (r0 :: rest) := s1
    rw [hbu]
    refine ⟨s2, ?_, ?_, ?_, ?_, s3⟩
    · rw [← hm]; exact s5
    · intro c
      rw [← hm, s6 c]
      constructor
      · rintro (h | ⟨r, hr, h⟩)
        · exact ⟨r0, List.mem_cons_self r0 rest, h⟩
        · exact ⟨r, List.mem_cons_of_mem r0 hr, h⟩
      · rintro ⟨r, hr, h⟩
        rcases List.mem_cons.1 hr with rfl | hr
        · exact Or.inl h
        · exact Or.inr ⟨r, hr, h⟩
    · rintro x hx hxm ⟨q, hq, hqp⟩
      rcases s7 q hq with h | ⟨hmem, hner0, hnin⟩
      · exact hxm (by rw [← hqp]; exact h.trans hm)
      · rcases List.mem_cons.1 hx with rfl | hx
        · exact hner0 hqp
        · exact hnin (by rw [hqp]; exact hx)
    · intro q hq
      exact s8 q (fun h => hq (List.mem_cons.2 (Or.inl h)))
        (fun h => hq (List.mem_cons_of_mem r0 h))

theorem oldRoot_eq_max (a b : Nat) : (if min a b = a then b else a) = max a b := by
  by_cases hm : min a b = a
  · rw [if_pos hm, max_eq_right (min_eq_left_iff.1 hm)]
  · rw [if_neg hm, max_eq_left (min_eq_right_iff.1 (min_cases_eq a b hm))]

/-! # Claim theorems -/

/-- C1: Canonical-root invariant.  In every state reachable by any sequence
of add-contact, identify, and unionSets operations, every `Parent` row
satisfies `parId = min(childIds)`: the root is a member of its own member
list and is a lower bound of it.  (Rows created at ingestion are singletons
`⟨id, id, [id]⟩` directly by the definitions of `addContact` and `identify`,
and `unionSets` keeps the surviving row canonical.) -/
theorem C1_canonical_root (db : DB) (h : Reachable db) :
    ∀ p ∈ db.parents, p.parId ∈ p.childIds ∧ ∀ c ∈ p.childIds, p.parId ≤ c := by
  have hInv := reachable_DbInv h
  intro p hp
  exact ⟨(hInv.2.2.1 p hp).2.2.1, (hInv.2.2.1 p hp).2.2.2⟩

theorem C1_canonical_root_witness :
    dbW1u.parents = [⟨1, 1, [1, 2]⟩] ∧
    (∀ p ∈ dbW1u.parents, p.parId ∈ p.childIds ∧ ∀ c ∈ p.childIds, p.parId ≤ c) :=
  ⟨by decide,
   C1_canonical_root dbW1u
     (Reachable.union _ 1 2
       (Reachable.add _ reqW2 1 (Reachable.add _ reqW1 0 Reachable.init)))⟩

/-- C2 counterexample: the claim quantifies over arbitrary `unionSets`
operations, and `unionSets 1 1` on a live root deletes that row outright
(the `save` is followed by `deleteOne` of the same document), leaving
contact 1 a member of no row — so the partition fails in a state the claim
covers. -/
theorem C2_partition_cex : Reachable dbC2 ∧ ¬ PartitionInv dbC2 :=
  ⟨Reachable.union _ 1 1 (Reachable.add _ reqC2 0 Reachable.init), by decide⟩

/-- C2 (amended): partition invariant, restricted to sequences in which
`unionSets` is only invoked with two distinct arguments — which is how both
of its call sites in the handlers invoke it.  Then the union of `childIds`
over live rows is exactly the set of contact ids, rows are pairwise
disjoint, and every contact id lies in exactly one row. -/
theorem C2_partition (db : DB) (h : ReachableD db) :
    (∀ cid, cid ∈ db.contacts.map (·.id) ↔
      ∃ p, p ∈ db.parents ∧ cid ∈ p.childIds) ∧
    (∀ p, p ∈ db.parents → ∀ q, q ∈ db.parents → p ≠ q →
      ∀ cid, cid ∈ p.childIds → cid ∉ q.childIds) ∧
    PartitionInv db := by
  obtain ⟨hInv, hPart⟩ := reachableD_inv h
  refine ⟨?_, ?_, hPart⟩
  · intro cid
    constructor
    · intro hcid
      obtain ⟨P, hP, hPc, _⟩ := hPart cid hcid
      exact ⟨P, hP, hPc⟩
    · rintro ⟨p, hp, hcid⟩
      exact hInv.2.2.2 p hp cid hcid
  · intro p hp q hq hpq cid hcp hcq
    obtain ⟨P, hP, hPc, hPuniq⟩ := hPart cid (hInv.2.2.2 p hp cid hcp)
    exact hpq ((hPuniq p hp hcp).trans (hPuniq q hq hcq).symm)

theorem C2_partition_witness :
    (∀ cid, cid ∈ dbW2.contacts.map (·.id) ↔
      ∃ p, p ∈ dbW2.parents ∧ cid ∈ p.childIds) ∧
    (∀ p, p ∈ dbW2.parents → ∀ q, q ∈ dbW2.parents → p ≠ q →
      ∀ cid, cid ∈ p.childIds → cid ∉ q.childIds) ∧
    PartitionInv dbW2 :=
  C2_partition dbW2
    (ReachableD.add _ reqW2 1 (ReachableD.add _ reqW1 0 ReachableD.init))

/-- C3 counterexample: in `dbW3`, contact 2 is a member of the set rooted at
1, and 3 is a root.  The claim says `unionSets 2 3` resolves 2 to its root 1
via find and merges the two sets.  The code instead looks up a row with
`parId = 2`, finds none, and silently changes nothing — the "losing" row 3
survives untouched. -/
theorem C3_union_contract_cex :
    unionSets dbW3 2 3 = dbW3 ∧
    ((unionSets dbW3 2 3).parents.find? (fun p => decide (p.parId = 3))).isSome
      = true := by
  decide

/-- C3 (amended): `unionSets` expects two current root ids and does not
resolve members via find: a call in which either lookup by `parId` fails is
a silent no-op, and the function returns no value.  When both lookups
succeed and the roots differ, the numerically smaller root's row survives
with `childIds` the deduplicated union of both member lists, and the larger
root's row is deleted. -/
theorem C3_union_contract (db : DB) (a b : Nat) (hInv : DbInv db) (hab : a ≠ b) :
    ((db.parents.find? (fun p => decide (p.parId = a)) = none ∨
      db.parents.find? (fun p => decide (p.parId = b)) = none) →
        unionSets db a b = db) ∧
    (∀ pA pB, db.parents.find? (fun p => decide (p.parId = a)) = some pA →
      db.parents.find? (fun p => decide (p.parId = b)) = some pB →
      (unionSets db a b).contacts = db.contacts ∧
      (unionSets db a b).parents =
        (db.parents.filter (fun p => decide (p.id ≠ max a b))).map
          (fun p => if p.id = min a b then mergedRow a b pA pB else p) ∧
      liveRoot (unionSets db a b) (min a b) ∧
      ¬ liveRoot (unionSets db a b) (max a b)) := by
  constructor
  · exact unionSets_not_found db a b
  · intro pA pB hA hB
    have hkey : ∀ p ∈ db.parents, p.id = p.parId := fun p hp => (hInv.2.2.1 p hp).1
    refine ⟨unionSets_contacts db a b, ?_,
      unionSets_live_min db a b pA pB hInv hab hA hB, ?_⟩
    · rw [unionSets_char db a b pA pB hInv.2.1 hkey hA hB]
      dsimp only
      rw [oldRoot_eq_max]
    · exact unionSets_dead db a b pA pB hInv hab hA hB (max a b)
        (max_choice a b) (min_lt_max.2 hab).ne'

theorem C3_union_contract_witness :
    liveRoot (unionSets dbW3 1 3) (min 1 3) ∧
    ¬ liveRoot (unionSets dbW3 1 3) (max 1 3) :=
  ⟨((C3_union_contract dbW3 1 3 (by decide) (by decide)).2
      ⟨1, 1, [1, 2]⟩ ⟨3, 3, [3]⟩ (by decide) (by decide)).2.2.1,
   ((C3_union_contract dbW3 1 3 (by decide) (by decide)).2
      ⟨1, 1, [1, 2]⟩ ⟨3, 3, [3]⟩ (by decide) (by decide)).2.2.2⟩

/-- C7 counterexample: a secondary contact whose `linkedId` (99) references
no existing record passes validation and is persisted — the claim demands a
validation failure in this case. -/
theorem C7_secondary_validation_cex :
    (addContact ⟨[], []⟩ reqC7 0).2 = AddRes.redirectOk ∧
    (addContact ⟨[], []⟩ reqC7 0).1.contacts.length = 1 := by
  decide

/-- C7 (amended): validation fails exactly when precedence is secondary and
`linkedId` is absent.  Whether `linkedId` references an existing record is
never checked: any other request whose id is fresh is persisted (a dangling
`linkedId` merely skips the link-union step). -/
theorem C7_secondary_validation (db : DB) (req : AddReq) (now : Nat) :
    ((addContact db req now).2 = AddRes.redirectLinkedIdRequired ↔
      (req.linkPrecedence = .secondary ∧ req.linkedId = none)) ∧
    (¬ (req.linkPrecedence = .secondary ∧ req.linkedId = none) →
      req.id ∉ db.contacts.map (·.id) →
      (addContact db req now).1.contacts = db.contacts ++
        [⟨req.id, req.phoneNumber, req.email, req.linkedId,
          req.linkPrecedence, now, now⟩]) := by
  constructor
  · by_cases h1 : req.linkPrecedence = .secondary ∧ req.linkedId = none
    · rw [addContact_val_eq db req now h1]
      simp [h1]
    · constructor
      · intro hres
        exfalso
        by_cases h2 : db.contacts.any (fun c => decide (c.id = req.id)) = true
        · rw [addContact_dup_eq db req now h1 h2] at hres
          exact AddRes.noConfusion hres
        · rw [(addContact_contacts_ok db req now h1 h2).2] at hres
          exact AddRes.noConfusion hres
      · intro h
        exact absurd h h1
  · intro h1 h2
    have h2' : ¬ db.contacts.any (fun c => decide (c.id = req.id)) = true := by
      intro hc
      rw [List.any_eq_true] at hc
      obtain ⟨c, hcmem, hcid⟩ := hc
      rw [decide_eq_true_eq] at hcid
      exact h2 (hcid ▸ List.mem_map_of_mem (·.id) hcmem)
    exact (addContact_contacts_ok db req now h1 h2').1

theorem C7_secondary_validation_witness :
    (addContact dbW8 ⟨3, none, none, some 1, .secondary⟩ 2).1.contacts =
      dbW8.contacts ++ [⟨3, none, none, some 1, .secondary, 2, 2⟩] :=
  (C7_secondary_validation dbW8 ⟨3, none, none, some 1, .secondary⟩ 2).2
    (by simp) (by decide)

/-- C8 counterexample: with no row for id 3, `unionSets dbW8 1 3` returns
normally with the state bit-for-bit unchanged — a silent no-op, not a
logged, reported failure. -/
theorem C8_union_missing_row_cex :
    unionSets dbW8 1 3 = dbW8 ∧
    dbW8.parents.find? (fun p => decide (p.parId = 3)) = none := by
  decide

/-- C8 (amended): a union naming an id with no disjoint-set row returns
immediately with no mutation of any state — there is no error signal, no
log, and no partial cleanup (`if (!parentA || !parentB) return;`). -/
theorem C8_union_missing_row (db : DB) (a b : Nat)
    (h : db.parents.find? (fun p => decide (p.parId = a)) = none ∨
         db.parents.find? (fun p => decide (p.parId = b)) = none) :
    unionSets db a b = db :=
  unionSets_not_found db a b h

theorem C8_union_missing_row_witness : unionSets dbW8 1 2 = dbW8 :=
  C8_union_missing_row dbW8 1 2 (Or.inr (by decide))

/-- C9 counterexample: the no-match branch of `/identify` answers with only
the corrected `primaryContactId` — the legacy `primaryContatctId` key is
absent (modelled as `none`), so this successful response does not carry the
two fields the claim requires. -/
theorem C9_dual_primary_cex :
    (identify ⟨[], []⟩ (some "a@x.com") none 0).2 =
      some ⟨none, 1, ["a@x.com"], [], []⟩ := by
  decide

/-- C9 (amended): only the match branch emits both near-identical primary-id
fields, with the same value; the no-match branch emits only the corrected
field. -/
theorem C9_dual_primary (db : DB) (e p : Option String) (now : Nat)
    (sum : IdentifySummary) (h : (identify db e p now).2 = some sum) :
    (identifyMatches db e p ≠ [] →
      sum.primaryContatctId = some sum.primaryContactId) ∧
    (identifyMatches db e p = [] → sum.primaryContatctId = none) := by
  by_cases hval : ¬ strTruthy e = true ∧ ¬ strTruthy p = true
  · rw [identify_val_eq db e p now hval] at h
    exact Option.noConfusion h
  · by_cases hm : (identifyMatches db e p).isEmpty = true
    · rw [identify_nomatch_eq db e p now hval hm] at h
      have hsum := Option.some.inj h
      constructor
      · intro hne
        exfalso
        rcases hmatch : identifyMatches db e p with _ | ⟨c, cs⟩
        · exact hne hmatch
        · rw [hmatch] at hm
          exact Bool.noConfusion hm
      · intro _
        rw [← hsum]
    · rw [identify_match_eq db e p now hval hm] at h
      dsimp only at h
      have hsum := Option.some.inj h
      constructor
      · intro _
        rw [← hsum]
      · intro hmm
        exact absurd (show (identifyMatches db e p).isEmpty = true by
          rw [hmm]; rfl) hm

theorem C9_dual_primary_witness :
    IdentifySummary.primaryContatctId ⟨some 1, 1, ["w9@x.com"], [], []⟩ =
      some (IdentifySummary.primaryContactId ⟨some 1, 1, ["w9@x.com"], [], []⟩) :=
  (C9_dual_primary dbW9 (some "w9@x.com") none 1
    ⟨some 1, 1, ["w9@x.com"], [], []⟩ (by decide)).1 (by decide)

/-- C10: frame property.  No operation ever modifies an existing `Contact`
document (in particular `linkPrecedence` and `updatedAt` are never rewritten
after a merge): `/add-contact` and `/identify` append at most one new
document to the `Contact` collection and all their other mutations are
confined to `Parent`; `unionSets` leaves the collection untouched; the list
route is a pure read. -/
theorem C10_contacts_frame (db : DB) (req : AddReq) (e p : Option String)
    (now a b : Nat) :
    (∃ oc : Option Contact,
      (addContact db req now).1.contacts = db.contacts ++ oc.toList) ∧
    (∃ oc : Option Contact,
      (identify db e p now).1.contacts = db.contacts ++ oc.toList) ∧
    (unionSets db a b).contacts = db.contacts ∧
    getContacts db = db.contacts := by
  refine ⟨?_, ?_, unionSets_contacts db a b, rfl⟩
  · by_cases h1 : req.linkPrecedence = .secondary ∧ req.linkedId = none
    · exact ⟨none, by rw [addContact_val_eq db req now h1]; simp⟩
    · by_cases h2 : db.contacts.any (fun c => decide (c.id = req.id)) = true
      · exact ⟨none, by rw [addContact_dup_eq db req now h1 h2]; simp⟩
      · exact ⟨some ⟨req.id, req.phoneNumber, req.email, req.linkedId,
          req.linkPrecedence, now, now⟩, (addContact_contacts_ok db req now h1 h2).1⟩
  · by_cases hval : ¬ strTruthy e = true ∧ ¬ strTruthy p = true
    · exact ⟨none, by rw [identify_val_eq db e p now hval]; simp⟩
    · by_cases hm : (identifyMatches db e p).isEmpty = true
      · exact ⟨some ⟨newIdOf db, p, e, none, .primary, now, now⟩, by
          rw [identify_nomatch_eq db e p now hval hm]; rfl⟩
      · refine ⟨none, ?_⟩
        rw [identify_match_eq db e p now hval hm]
        dsimp only
        rw [unionFold_contacts]
        simp

/-- C6: resolve on no match creates a brand-new identity: a fresh id
strictly greater than every existing contact id, exactly one new primary
contact carrying the given identifiers, exactly one new singleton row, and a
summary with the new id as primary, exactly the provided identifiers, and no
secondaries. -/
theorem C6_new_identity (db : DB) (e p : Option String) (now : Nat)
    (hval : strTruthy e = true ∨ strTruthy p = true)
    (hmatch : identifyMatches db e p = []) :
    ∃ db' sum, identify db e p now = (db', some sum) ∧
      sum.primaryContactId = newIdOf db ∧
      (∀ c ∈ db.contacts, c.id < newIdOf db) ∧
      db'.contacts = db.contacts ++ [⟨newIdOf db, p, e, none, .primary, now, now⟩] ∧
      db'.parents = db.parents ++ [⟨newIdOf db, newIdOf db, [newIdOf db]⟩] ∧
      (∀ s, s ∈ sum.emails ↔ e = some s ∧ s ≠ "") ∧
      (∀ s, s ∈ sum.phoneNumbers ↔ p = some s ∧ s ≠ "") ∧
      sum.secondaryContactIds = [] := by
  have hval' : ¬ (¬ strTruthy e = true ∧ ¬ strTruthy p = true) := by
    rcases hval with h | h
    · exact fun hc => hc.1 h
    · exact fun hc => hc.2 h
  have hm : (identifyMatches db e p).isEmpty = true := by rw [hmatch]; rfl
  exact ⟨_, _, identify_nomatch_eq db e p now hval' hm, rfl, newIdOf_gt db, rfl, rfl,
    fun s => truthy_single_mem e s, fun s => truthy_single_mem p s, rfl⟩

theorem C6_new_identity_witness :
    ∃ db' sum, identify ⟨[], []⟩ (some "new@x.com") none 5 = (db', some sum) ∧
      sum.primaryContactId = newIdOf ⟨[], []⟩ ∧
      (∀ c ∈ (⟨[], []⟩ : DB).contacts, c.id < newIdOf ⟨[], []⟩) ∧
      db'.contacts = (⟨[], []⟩ : DB).contacts ++
        [⟨newIdOf ⟨[], []⟩, none, some "new@x.com", none, .primary, 5, 5⟩] ∧
      db'.parents = (⟨[], []⟩ : DB).parents ++
        [⟨newIdOf ⟨[], []⟩, newIdOf ⟨[], []⟩, [newIdOf ⟨[], []⟩]⟩] ∧
      (∀ s, s ∈ sum.emails ↔ some "new@x.com" = some s ∧ s ≠ "") ∧
      (∀ s, s ∈ sum.phoneNumbers ↔ (none : Option String) = some s ∧ s ≠ "") ∧
      sum.secondaryContactIds = [] :=
  C6_new_identity ⟨[], []⟩ (some "new@x.com") none 5 (Or.inl (by decide)) (by decide)

/-- C4: merge determinism / batch order independence.  For any duplicate-free
list of live roots, the spec's left fold of pairwise unions converges to a
single surviving row rooted at the minimum of the roots, holding the union
of all their member sets, with every other folded root dead and all other
rows untouched; consequently any two permutations of the same roots produce
the same final partition.  Repeating a union of the same pair after the
first is a no-op on the state. -/
theorem C4_batch_determinism (db : DB) (rs : List Nat)
    (hInv : DbInv db) (hnd : rs.Nodup) (hne : rs ≠ [])
    (hlive : ∀ r ∈ rs, liveRoot db r) :
    ((batchUnion db rs).contacts = db.contacts ∧
     liveRoot (batchUnion db rs) (minList rs) ∧
     minList rs ∈ rs ∧ (∀ r ∈ rs, minList rs ≤ r) ∧
     (∀ c, membersOf (batchUnion db rs) (minList rs) c ↔
       ∃ r ∈ rs, membersOf db r c) ∧
     (∀ x ∈ rs, x ≠ minList rs → ¬ liveRoot (batchUnion db rs) x) ∧
     (∀ q : Parent, q.parId ∉ rs →
       (q ∈ (batchUnion db rs).parents ↔ q ∈ db.parents))) ∧
    (∀ rs', rs'.Perm rs → ∀ root c,
      membersOf (batchUnion db rs') root c ↔ membersOf (batchUnion db rs) root c) ∧
    (∀ x y, unionSets (unionSets db x y) x y = unionSets db x y) := by
  obtain ⟨b1, b2, b3, b4, b5, _⟩ := batchUnion_spec db rs hInv hnd hne hlive
  refine ⟨⟨b1, b2, minList_mem rs hne, minList_le rs, b3, b4, b5⟩, ?_,
    fun x y => unionSets_idem db x y hInv⟩
  intro rs' hperm root c
  have hnd' : rs'.Nodup := hperm.nodup_iff.2 hnd
  have hne' : rs' ≠ [] := by
    intro hc
    have hlen := hperm.length_eq
    rw [hc] at hlen
    exact hne (List.length_eq_zero.1 hlen.symm)
  have hlive' : ∀ r ∈ rs', liveRoot db r := fun r hr => hlive r (hperm.mem_iff.1 hr)
  obtain ⟨c1, c2, c3, c4, c5, _⟩ := batchUnion_spec db rs' hInv hnd' hne' hlive'
  have hmineq : minList rs' = minList rs :=
    le_antisymm (minList_le rs' _ (hperm.mem_iff.2 (minList_mem rs hne)))
      (minList_le rs _ (hperm.mem_iff.1 (minList_mem rs' hne')))
  by_cases hroot : root = minList rs
  · subst hroot
    rw [b3 c]
    have c3' := hmineq ▸ c3
    rw [c3' c]
    constructor
    · rintro ⟨r, hr, h⟩
      exact ⟨r, hperm.mem_iff.1 hr, h⟩
    · rintro ⟨r, hr, h⟩
      exact ⟨r, hperm.mem_iff.2 hr, h⟩
  · by_cases hin : root ∈ rs
    · constructor
      · rintro ⟨q, hq, hqp, hcq⟩
        exact absurd ⟨q, hq, hqp⟩
          (c4 root (hperm.mem_iff.2 hin) (by rw [hmineq]; exact hroot))
      · rintro ⟨q, hq, hqp, hcq⟩
        exact absurd ⟨q, hq, hqp⟩ (b4 root hin hroot)
    · have hnin' : root ∉ rs' := fun hc => hin (hperm.mem_iff.1 hc)
      constructor
      · rintro ⟨q, hq, hqp, hcq⟩
        exact ⟨q, (b5 q (by rw [hqp]; exact hin)).2
          ((c5 q (by rw [hqp]; exact hnin')).1 hq), hqp, hcq⟩
      · rintro ⟨q, hq, hqp, hcq⟩
        exact ⟨q, (c5 q (by rw [hqp]; exact hnin')).2
          ((b5 q (by rw [hqp]; exact hin)).1 hq), hqp, hcq⟩

theorem C4_batch_determinism_witness :
    liveRoot (batchUnion dbW4 [5, 2, 9]) (minList [5, 2, 9]) ∧
    (∀ x ∈ [5, 2, 9], x ≠ minList [5, 2, 9] →
      ¬ liveRoot (batchUnion dbW4 [5, 2, 9]) x) :=
  ⟨((C4_batch_determinism dbW4 [5, 2, 9] (by decide) (by decide) (by decide)
      (by decide)).1).2.1,
   ((C4_batch_determinism dbW4 [5, 2, 9] (by decide) (by decide) (by decide)
      (by decide)).1).2.2.2.2.2.1⟩

/-- C5: aggregation completeness of resolve.  For every query with at least
one match, after merging all matched sets the implementation reads the final
row and fetches every member record individually: the returned emails and
phone numbers are exactly the deduplicated truthy values over all members of
the final set — so an identifier held by a transitively-linked member that
did not match the query still appears — `secondaryContactIds` is exactly the
member list without the primary, and every matched contact's whole original
set is absorbed into the final set. -/
theorem C5_aggregation (db : DB) (e p : Option String) (now : Nat)
    (hInv : DbInv db) (hPart : PartitionInv db)
    (hval : strTruthy e = true ∨ strTruthy p = true)
    (hmatch : identifyMatches db e p ≠ []) :
    ∃ db' sum, identify db e p now = (db', some sum) ∧
      ∃ q, q ∈ db'.parents ∧ q.parId = sum.primaryContactId ∧
        (∀ s, s ∈ sum.emails ↔ ∃ cid ∈ q.childIds, ∃ c, c ∈ db.contacts ∧
          c.id = cid ∧ c.email = some s ∧ s ≠ "") ∧
        (∀ s, s ∈ sum.phoneNumbers ↔ ∃ cid ∈ q.childIds, ∃ c, c ∈ db.contacts ∧
          c.id = cid ∧ c.phoneNumber = some s ∧ s ≠ "") ∧
        (∀ x, x ∈ sum.secondaryContactIds ↔ x ∈ q.childIds ∧
          x ≠ sum.primaryContactId) ∧
        (∀ P ∈ db.parents, (∃ mc ∈ identifyMatches db e p, mc.id ∈ P.childIds) →
          ∀ cid ∈ P.childIds, cid ∈ q.childIds) := by
  have hval' : ¬ (¬ strTruthy e = true ∧ ¬ strTruthy p = true) := by
    rcases hval with h | h
    · exact fun hc => hc.1 h
    · exact fun hc => hc.2 h
  have hm' : ¬ (identifyMatches db e p).isEmpty = true := by
    rcases hmm : identifyMatches db e p with _ | ⟨c, cs⟩
    · exact absurd hmm hmatch
    · simp
  refine ⟨_, _, identify_match_eq db e p now hval' hm', ?_⟩
  dsimp only
  set rootsArr := dedupFirst ((db.parents.filter (fun q =>
    ((identifyMatches db e p).map (·.id)).any
      (fun mid => decide (mid ∈ q.childIds)))).map (·.parId)) with hRA
  set baseRoot := minList rootsArr with hBR
  have hndRA : rootsArr.Nodup := by rw [hRA]; exact nodup_dedupFirst _
  have hliveRA : ∀ r ∈ rootsArr, liveRoot db r := by
    intro r hr
    rw [hRA, mem_dedupFirst] at hr
    obtain ⟨q, hqf, hqp⟩ := List.mem_map.1 hr
    exact ⟨q, (List.mem_filter.1 hqf).1, hqp⟩
  have hRAne : rootsArr ≠ [] := by
    obtain ⟨c, hc⟩ := List.exists_mem_of_ne_nil _ hmatch
    have hcdb : c ∈ db.contacts := List.mem_of_mem_filter hc
    obtain ⟨P, hPmem, hPc, _⟩ := hPart c.id (List.mem_map_of_mem (·.id) hcdb)
    intro hnil
    have hPr : P.parId ∈ rootsArr := by
      rw [hRA, mem_dedupFirst]
      apply List.mem_map_of_mem
      refine List.mem_filter.2 ⟨hPmem, ?_⟩
      rw [List.any_eq_true]
      exact ⟨c.id, List.mem_map_of_mem (·.id) hc, by simp [hPc]⟩
    rw [hnil] at hPr
    cases hPr
  have hble : ∀ r ∈ rootsArr, baseRoot ≤ r := by rw [hBR]; exact minList_le rootsArr
  have hbmem : baseRoot ∈ rootsArr := by rw [hBR]; exact minList_mem rootsArr hRAne
  have hblive : liveRoot db baseRoot := hliveRA baseRoot hbmem
  obtain ⟨s1, s2, s3, s4, s5, s6, s7, s8⟩ :=
    unionFold_spec rootsArr db baseRoot hInv hblive hndRA
      (fun r hr _ => hliveRA r hr) (Or.inr hble)
  have hb2 : (unionFold (db, baseRoot) rootsArr).2 = baseRoot := by
    rw [s1]
    show rootsArr.foldl min baseRoot = baseRoot
    exact foldl_min_eq_of_le rootsArr baseRoot hble
  rw [hb2]
  obtain ⟨q0, hq0f⟩ := liveRoot_find? (hb2 ▸ s5)
  have hq0 := find?_parId_eq hq0f
  rw [hq0f]
  simp only [Option.map_some', Option.getD_some]
  have huni : ∀ x, x ∈ dedupFirst (baseRoot :: q0.childIds) ↔ x ∈ q0.childIds := by
    intro x
    rw [mem_dedupFirst, List.mem_cons]
    constructor
    · rintro (rfl | h)
      · have hmemb := (s3.2.2.1 q0 hq0.1).2.2.1
        rw [hq0.2] at hmemb
        exact hmemb
      · exact h
    · intro h
      exact Or.inr h
  have hfetchE : ∀ (cid : Nat) (s : String),
      ((((unionFold (db, baseRoot) rootsArr).1.contacts.find?
          (fun c => decide (c.id = cid))).bind (fun d =>
        if strTruthy d.email then d.email else none)) = some s ↔
       ∃ c, c ∈ db.contacts ∧ c.id = cid ∧ c.email = some s ∧ s ≠ "") := by
    intro cid s
    rw [s2]
    constructor
    · intro h
      rw [Option.bind_eq_some] at h
      obtain ⟨d, hd, hds⟩ := h
      obtain ⟨hdmem, hdid⟩ := find?_decide_eq_some hd
      rw [truthy_guard_eq] at hds
      exact ⟨d, hdmem, hdid, hds.1, hds.2⟩
    · rintro ⟨c, hcmem, hcid', hce, hsne⟩
      rw [Option.bind_eq_some]
      refine ⟨c, ?_, ?_⟩
      · refine find?_eq_some_of_unique _ c _ hcmem (by simp [hcid']) ?_
        intro b hb hbid
        rw [decide_eq_true_eq] at hbid
        exact List.inj_on_of_nodup_map hInv.1 hb hcmem (by rw [hbid, hcid'])
      · rw [truthy_guard_eq]
        exact ⟨hce, hsne⟩
  have hfetchP : ∀ (cid : Nat) (s : String),
      ((((unionFold (db, baseRoot) rootsArr).1.contacts.find?
          (fun c => decide (c.id = cid))).bind (fun d =>
        if strTruthy d.phoneNumber then d.phoneNumber else none)) = some s ↔
       ∃ c, c ∈ db.contacts ∧ c.id = cid ∧ c.phoneNumber = some s ∧ s ≠ "") := by
    intro cid s
    rw [s2]
    constructor
    · intro h
      rw [Option.bind_eq_some] at h
      obtain ⟨d, hd, hds⟩ := h
      obtain ⟨hdmem, hdid⟩ := find?_decide_eq_some hd
      rw [truthy_guard_eq] at hds
      exact ⟨d, hdmem, hdid, hds.1, hds.2⟩
    · rintro ⟨c, hcmem, hcid', hce, hsne⟩
      rw [Option.bind_eq_some]
      refine ⟨c, ?_, ?_⟩
      · refine find?_eq_some_of_unique _ c _ hcmem (by simp [hcid']) ?_
        intro b hb hbid
        rw [decide_eq_true_eq] at hbid
        exact List.inj_on_of_nodup_map hInv.1 hb hcmem (by rw [hbid, hcid'])
      · rw [truthy_guard_eq]
        exact ⟨hce, hsne⟩
  refine ⟨q0, hq0.1, hq0.2, ?_, ?_, ?_, ?_⟩
  · intro s
    rw [mem_dedupFirst, List.mem_filterMap]
    constructor
    · rintro ⟨cid, hcidmem, hfe⟩
      obtain ⟨c, hc1, hc2, hc3, hc4⟩ := (hfetchE cid s).1 hfe
      exact ⟨cid, (huni cid).1 hcidmem, c, hc1, hc2, hc3, hc4⟩
    · rintro ⟨cid, hcid', c, hc1, hc2, hc3, hc4⟩
      exact ⟨cid, (huni cid).2 hcid', (hfetchE cid s).2 ⟨c, hc1, hc2, hc3, hc4⟩⟩
  · intro s
    rw [mem_dedupFirst, List.mem_filterMap]
    constructor
    · rintro ⟨cid, hcidmem, hfe⟩
      obtain ⟨c, hc1, hc2, hc3, hc4⟩ := (hfetchP cid s).1 hfe
      exact ⟨cid, (huni cid).1 hcidmem, c, hc1, hc2, hc3, hc4⟩
    · rintro ⟨cid, hcid', c, hc1, hc2, hc3, hc4⟩
      exact ⟨cid, (huni cid).2 hcid', (hfetchP cid s).2 ⟨c, hc1, hc2, hc3, hc4⟩⟩
  · intro x
    rw [List.mem_filter]
    simp only [decide_eq_true_eq]
    constructor
    · rintro ⟨hx, hne⟩
      rcases List.mem_cons.1 hx with rfl | hx
      · exact absurd rfl hne
      · exact ⟨hx, hne⟩
    · rintro ⟨hx, hne⟩
      exact ⟨List.mem_cons_of_mem _ hx, hne⟩
  · intro P hP hPmatch cid hcid
    have hPr : P.parId ∈ rootsArr := by
      rw [hRA, mem_dedupFirst]
      apply List.mem_map_of_mem
      refine List.mem_filter.2 ⟨hP, ?_⟩
      rw [List.any_eq_true]
      obtain ⟨mc, hmc1, hmc2⟩ := hPmatch
      exact ⟨mc.id, List.mem_map_of_mem (·.id) hmc1, by simp [hmc2]⟩
    have hfin : membersOf (unionFold (db, baseRoot) rootsArr).1
        (unionFold (db, baseRoot) rootsArr).2 cid :=
      (s6 cid).2 (Or.inr ⟨P.parId, hPr, P, hP, rfl, hcid⟩)
    rw [hb2] at hfin
    have hrow := membersOf_row s3 q0 hq0.1 cid
    rw [hq0.2] at hrow
    exact hrow.1 hfin

theorem C5_aggregation_witness :
    ∃ db' sum, identify dbW5 (some "a") none 7 = (db', some sum) ∧
      ∃ q, q ∈ db'.parents ∧ q.parId = sum.primaryContactId ∧
        (∀ s, s ∈ sum.emails ↔ ∃ cid ∈ q.childIds, ∃ c, c ∈ dbW5.contacts ∧
          c.id = cid ∧ c.email = some s ∧ s ≠ "") ∧
        (∀ s, s ∈ sum.phoneNumbers ↔ ∃ cid ∈ q.childIds, ∃ c, c ∈ dbW5.contacts ∧
          c.id = cid ∧ c.phoneNumber = some s ∧ s ≠ "") ∧
        (∀ x, x ∈ sum.secondaryContactIds ↔ x ∈ q.childIds ∧
          x ≠ sum.primaryContactId) ∧
        (∀ P ∈ dbW5.parents, (∃ mc ∈ identifyMatches dbW5 (some "a") none,
          mc.id ∈ P.childIds) → ∀ cid ∈ P.childIds, cid ∈ q.childIds) :=
  C5_aggregation dbW5 (some "a") none 7 (by decide) (by decide)
    (Or.inl (by decide)) (by decide)
